import Mathlib

/-!
# Verification of the yustack userspace networking stack

A shallow embedding, in Lean 4, of the parts of the yustack repository
(a Go userspace TCP/IP stack) that the specification's claims are about,
together with theorems settling each claim.

Conventions:
* Go machine integers are embedded as `Nat` with explicit reductions
  modulo `2^32` (`tcpW`) where the Go code computes in `uint32`.
* Go byte strings / slices become `List Nat`, Go `string` addresses become
  `String`.
* Fallible Go code (nil returns, panics on out-of-range access) is
  embedded with `Option`.
* The `seqnum` package (TCP sequence-number arithmetic) is not part of
  the provided sources; only its callers are.  Its operations are
  modelled from the spec, which describes them as arithmetic on 32-bit
  sequence numbers with circular interval tests such as
  `segSeq ∈ [rcvNxt, rcvNxt+rcvWnd)` and `(ack−1) ∈ [sndUna, sndNxt)`.
-/

namespace Yustack

/-! ## Sequence-number arithmetic

Modelled from the spec: the `seqnum` package is absent from the sources;
the spec describes sequence numbers as 32-bit values with wrap-around
arithmetic and half-open circular interval membership (`[a, b)` meaning
`v - a < b - a` in unsigned 32-bit arithmetic).  `LessThan` is the usual
signed comparison of the 32-bit difference. -/

/-- `2^32`, the modulus of 32-bit sequence-number arithmetic. -/
def tcpW : Nat := 4294967296

/-- `2^31`, the signedness threshold of 32-bit arithmetic. -/
def tcpH : Nat := 2147483648

/-- 32-bit wrap-around addition (`seqnum.Value.Add`). -/
def seqAdd (v s : Nat) : Nat := (v + s) % tcpW

/-- 32-bit wrap-around subtraction `v - w` (`seqnum.Value.Size`, reversed
arguments; also the difference used by `InRange` and `LessThan`). -/
def seqSub (v w : Nat) : Nat := (v + (tcpW - w % tcpW)) % tcpW

/-- `seqnum.Value.LessThan`: the signed 32-bit difference `v - w` is
negative. -/
def seqLessThan (v w : Nat) : Bool := tcpH ≤ seqSub v w

/-- `v ∈ [first, last)` in circular order (`seqnum.Value.InRange`). -/
def seqInRange (v first last : Nat) : Bool := seqSub v first < seqSub last first

/-- `v ∈ [first, first+size)` in circular order (`seqnum.Value.InWindow`). -/
def seqInWindow (v first size : Nat) : Bool := seqInRange v first (seqAdd first size)

/-- `seqnum.Value.Size`: the number of values from `v` up to `w`. -/
def seqSize (v w : Nat) : Nat := seqSub w v

/-- `seqnum.Overlap`: the arcs `[v, v+sz)` and `[v2, v2+sz2)` intersect. -/
def seqOverlap (v sz v2 sz2 : Nat) : Bool :=
  seqLessThan v2 (seqAdd v sz) && seqLessThan v (seqAdd v2 sz2)

/-- Reflexive closure of `seqLessThan`: `v` precedes or equals `w` in
sequence-number order. -/
def seqLe (v w : Nat) : Prop := v = w ∨ seqLessThan v w = true

/-! ## Buffer model: `buffer.Prependable` (src/buffer/prependable.go) -/

/-- `buffer.Prependable`: a fixed backing buffer with a cursor `usedIdx`
that moves toward zero as headers are prepended. -/
structure Prependable where
  buf : List Nat
  usedIdx : Nat
deriving Repr, DecidableEq

/-- `NewPrependable(size)`: zero-filled buffer, cursor at the end. -/
def NewPrependable (size : Nat) : Prependable :=
  { buf := List.replicate size 0, usedIdx := size }

/-- `Prependable.Prepend(size)`: reserve `size` bytes in front of the used
region; returns `none` (Go `nil`) without mutating when `size > usedIdx`,
otherwise the reserved slice together with the updated buffer. -/
def Prependable.Prepend (p : Prependable) (size : Nat) : Option (List Nat) × Prependable :=
  if size > p.usedIdx then
    (none, p)
  else
    (some ((p.buf.drop (p.usedIdx - size)).take size), { p with usedIdx := p.usedIdx - size })

/-- `Prependable.UsedLength`. -/
def Prependable.UsedLength (p : Prependable) : Nat := p.buf.length - p.usedIdx

/-- `Prependable.UsedBytes`: the bytes at indices `[usedIdx, capacity)`. -/
def Prependable.UsedBytes (p : Prependable) : List Nat := p.buf.drop p.usedIdx

/-! ## TCP handshake retransmission (src/transport/tcp/connect.go, handshake.execute)

With no completing reply and no user-initiated close, the only events that
wake `execute`'s sleeper are firings of the resend timer, so the behaviour
of the loop is the deterministic evolution of `timeOut`: the timer is first
armed with 1 second; on each firing the code doubles `timeOut`, fails with
`ErrTimeout` if it now exceeds 60 seconds, and otherwise re-arms the timer
with the doubled value and retransmits the SYN. -/

/-- The successive timer durations (in seconds) that `handshake.execute`
waits through when no reply ever arrives, starting from timeout `t`.
`fuel` bounds the recursion; the timeout doubles every step, so any fuel
beyond 6 is enough from `t = 1`. -/
def backoffWaits : Nat → Nat → List Nat
  | 0, _ => []
  | fuel + 1, t => t :: (if 2 * t > 60 then [] else backoffWaits fuel (2 * t))

/-- The wait sequence of an unanswered handshake as executed by the code:
initial timeout 1 second. -/
def handshakeWaits : List Nat := backoffWaits 64 1

/-! ## TCP header SYN option parsing (src/unnamed/part_004, header.ParseSynOptions) -/

/-- `header.TCPSynOptions`. `WS` is Go `int` (−1 encodes "absent"). -/
structure TCPSynOptions where
  MSS : Nat
  WS : Int
  TS : Bool
  TSVal : Nat
  TSEcr : Nat
deriving Repr, DecidableEq

/-- The option-kind constants of the header package. -/
def TCPOptionEOL : Nat := 0
/-- NOP option kind. -/
def TCPOptionNOP : Nat := 1
/-- MSS option kind. -/
def TCPOptionMSS : Nat := 2
/-- WS option kind. -/
def TCPOptionWS : Nat := 3
/-- TS option kind. -/
def TCPOptionTS : Nat := 8
/-- `header.MaxWndScale`. -/
def MaxWndScale : Int := 14

/-- The defaults `ParseSynOptions` starts from: MSS 536 (RFC 1122 default
send MSS), WS −1 (no window scaling). -/
def synOptsDefault : TCPSynOptions :=
  { MSS := 536, WS := -1, TS := false, TSVal := 0, TSEcr := 0 }

/-- Big-endian 16-bit value from two bytes. -/
def be16 (hi lo : Nat) : Nat := hi * 256 + lo

/-- Big-endian 32-bit value of the four bytes of `opts` starting at `i`
(`binary.BigEndian.Uint32`), each read bounds-checked. -/
def be32At (opts : List Nat) (i : Nat) : Option Nat := do
  let b0 ← opts.get? i
  let b1 ← opts.get? (i + 1)
  let b2 ← opts.get? (i + 2)
  let b3 ← opts.get? (i + 3)
  pure (((b0 * 256 + b1) * 256 + b2) * 256 + b3)

/-- Result of one iteration of the `ParseSynOptions` loop: terminate with
the accumulated options, continue at a new index with updated
accumulators, or an out-of-bounds byte read (a Go slice panic). -/
inductive ParseStep where
  | done : TCPSynOptions → List Nat → ParseStep
  | cont : Nat → TCPSynOptions → List Nat → ParseStep
  | oob : ParseStep
deriving Repr, DecidableEq

/-- One iteration of the `header.ParseSynOptions` loop (the `switch` on
`opts[i]`).  Every byte access of the Go code is embedded as a
bounds-checked `List.get?`; an `oob` result would mean the Go code read
past the end of the options buffer.  Alongside the running
`TCPSynOptions`, the step threads a ghost list of the option kinds
successfully consumed so far, so that "an MSS/WS option is present" can
be stated precisely.  Termination of the loop (`EOL` sets `i = limit`)
is represented by `done`. -/
def parseSynStep (opts : List Nat) (isAck : Bool) (i : Nat) (synOpts : TCPSynOptions)
    (kinds : List Nat) : ParseStep :=
  if i < opts.length then
    match opts.get? i with
    | none => .oob
    | some b =>
      if b = TCPOptionEOL then
        .done synOpts kinds
      else if b = TCPOptionNOP then
        .cont (i + 1) synOpts kinds
      else if b = TCPOptionMSS then
        -- length must be 4
        if i + 4 > opts.length then .done synOpts kinds
        else match opts.get? (i + 1), opts.get? (i + 2), opts.get? (i + 3) with
          | some l, some h1, some l1 =>
            if l ≠ 4 then .done synOpts kinds
            else
              let mss := be16 h1 l1
              if mss = 0 then .done synOpts kinds
              else .cont (i + 4) { synOpts with MSS := mss } (TCPOptionMSS :: kinds)
          | _, _, _ => .oob
      else if b = TCPOptionWS then
        -- length must be 3
        if i + 3 > opts.length then .done synOpts kinds
        else match opts.get? (i + 1), opts.get? (i + 2) with
          | some l, some w =>
            if l ≠ 3 then .done synOpts kinds
            else
              let ws : Int := if (w : Int) > MaxWndScale then MaxWndScale else (w : Int)
              .cont (i + 3) { synOpts with WS := ws } (TCPOptionWS :: kinds)
          | _, _ => .oob
      else if b = TCPOptionTS then
        -- length must be 10
        if i + 10 > opts.length then .done synOpts kinds
        else match opts.get? (i + 1), be32At opts (i + 2), be32At opts (i + 6) with
          | some l, some tsVal, some tsEcr =>
            if l ≠ 10 then .done synOpts kinds
            else
              let s1 := { synOpts with TSVal := tsVal }
              let s2 := if isAck then { s1 with TSEcr := tsEcr } else s1
              .cont (i + 10) { s2 with TS := true } (TCPOptionTS :: kinds)
          | _, _, _ => .oob
      else
        -- unknown option: read the length byte and skip
        if i + 2 > opts.length then .done synOpts kinds
        else match opts.get? (i + 1) with
          | some l =>
            if l < 2 ∨ i + l > opts.length then .done synOpts kinds
            else .cont (i + l) synOpts kinds
          | none => .oob
  else
    .done synOpts kinds

/-- In-bounds indices read successfully. -/
lemma get?_lt {l : List Nat} {i : Nat} (h : i < l.length) : ∃ v, l.get? i = some v :=
  ⟨l.get ⟨i, h⟩, List.get?_eq_get h⟩

/-- `be32At` succeeds within bounds. -/
lemma be32At_isSome {opts : List Nat} {i : Nat} (h : i + 4 ≤ opts.length) :
    ∃ v, be32At opts i = some v := by
  unfold be32At
  obtain ⟨v0, hv0⟩ := get?_lt (l := opts) (i := i) (by omega)
  obtain ⟨v1, hv1⟩ := get?_lt (l := opts) (i := i + 1) (by omega)
  obtain ⟨v2, hv2⟩ := get?_lt (l := opts) (i := i + 2) (by omega)
  obtain ⟨v3, hv3⟩ := get?_lt (l := opts) (i := i + 3) (by omega)
  rw [hv0, hv1, hv2, hv3]
  exact ⟨_, rfl⟩

set_option maxHeartbeats 1000000 in
/-- Exhaustive description of one parser step: it is never an
out-of-bounds read; a terminating step returns the accumulators
unchanged; a continuing step strictly advances the index and preserves
the invariants (consumed kinds grow; `MSS`/`WS` change only when the
option is recorded as consumed; `WS` stays within `[-1, 14]`). -/
lemma parseSynStep_spec (opts : List Nat) (isAck : Bool) (i : Nat) (s : TCPSynOptions)
    (ks : List Nat) :
    parseSynStep opts isAck i s ks = .done s ks ∨
    ∃ i' s' ks', parseSynStep opts isAck i s ks = .cont i' s' ks' ∧
      i < i' ∧ i' ≤ opts.length ∧
      (∀ x, x ∈ ks → x ∈ ks') ∧
      (TCPOptionMSS ∉ ks' → s'.MSS = s.MSS) ∧
      (TCPOptionWS ∉ ks' → s'.WS = s.WS) ∧
      (s.WS ≤ 14 → s'.WS ≤ 14) ∧
      (-1 ≤ s.WS → -1 ≤ s'.WS) := by
  unfold parseSynStep
  by_cases hlt : i < opts.length
  case neg => rw [if_neg hlt]; left; rfl
  rw [if_pos hlt]
  obtain ⟨b, hb⟩ := get?_lt hlt
  rw [hb]
  dsimp only
  by_cases hEOL : b = TCPOptionEOL
  · rw [if_pos hEOL]; left; rfl
  rw [if_neg hEOL]
  by_cases hNOP : b = TCPOptionNOP
  · rw [if_pos hNOP]
    exact Or.inr ⟨i + 1, s, ks, rfl, by omega, by omega, fun x hx => hx,
      fun _ => rfl, fun _ => rfl, id, id⟩
  rw [if_neg hNOP]
  by_cases hMSS : b = TCPOptionMSS
  · rw [if_pos hMSS]
    by_cases hlen : i + 4 > opts.length
    · rw [if_pos hlen]; left; rfl
    rw [if_neg hlen]
    obtain ⟨l, hl⟩ := get?_lt (show i + 1 < opts.length by omega)
    obtain ⟨x2, hx2⟩ := get?_lt (show i + 2 < opts.length by omega)
    obtain ⟨x3, hx3⟩ := get?_lt (show i + 3 < opts.length by omega)
    rw [hl, hx2, hx3]
    dsimp only
    by_cases hl4 : l ≠ 4
    · rw [if_pos hl4]; left; rfl
    rw [if_neg hl4]
    by_cases hm0 : be16 x2 x3 = 0
    · rw [if_pos hm0]; left; rfl
    rw [if_neg hm0]
    refine Or.inr ⟨i + 4, _, _, rfl, by omega, by omega,
      fun x hx => List.mem_cons_of_mem _ hx, ?_, fun _ => rfl, id, id⟩
    intro hmem
    exact absurd (List.mem_cons_self _ _) hmem
  rw [if_neg hMSS]
  by_cases hWS : b = TCPOptionWS
  · rw [if_pos hWS]
    by_cases hlen : i + 3 > opts.length
    · rw [if_pos hlen]; left; rfl
    rw [if_neg hlen]
    obtain ⟨l, hl⟩ := get?_lt (show i + 1 < opts.length by omega)
    obtain ⟨w, hw⟩ := get?_lt (show i + 2 < opts.length by omega)
    rw [hl, hw]
    dsimp only
    by_cases hl3 : l ≠ 3
    · rw [if_pos hl3]; left; rfl
    rw [if_neg hl3]
    refine Or.inr ⟨i + 3, _, _, rfl, by omega, by omega,
      fun x hx => List.mem_cons_of_mem _ hx, fun _ => rfl, ?_, ?_, ?_⟩
    · intro hmem
      exact absurd (List.mem_cons_self _ _) hmem
    · intro _
      simp only
      split_ifs with hgt
      · exact le_refl MaxWndScale
      · simp only [MaxWndScale] at hgt ⊢
        omega
    · intro _
      simp only
      split_ifs with hgt
      · simp only [MaxWndScale]
        omega
      · omega
  rw [if_neg hWS]
  by_cases hTS : b = TCPOptionTS
  · rw [if_pos hTS]
    by_cases hlen : i + 10 > opts.length
    · rw [if_pos hlen]; left; rfl
    rw [if_neg hlen]
    obtain ⟨l, hl⟩ := get?_lt (show i + 1 < opts.length by omega)
    obtain ⟨v2, hv2⟩ := @be32At_isSome opts (i + 2) (by omega)
    obtain ⟨v6, hv6⟩ := @be32At_isSome opts (i + 6) (by omega)
    rw [hl, hv2, hv6]
    dsimp only
    by_cases hl10 : l ≠ 10
    · rw [if_pos hl10]; left; rfl
    rw [if_neg hl10]
    refine Or.inr ⟨i + 10, _, _, rfl, by omega, by omega,
      fun x hx => List.mem_cons_of_mem _ hx, ?_, ?_, ?_, ?_⟩ <;>
      intro hx <;> simp only <;> split_ifs <;> simpa using hx
  rw [if_neg hTS]
  by_cases hlen : i + 2 > opts.length
  · rw [if_pos hlen]; left; rfl
  rw [if_neg hlen]
  obtain ⟨l, hl⟩ := get?_lt (show i + 1 < opts.length by omega)
  rw [hl]
  dsimp only
  by_cases hskip : l < 2 ∨ i + l > opts.length
  · rw [if_pos hskip]; left; rfl
  · rw [if_neg hskip]
    exact Or.inr ⟨i + l, s, ks, rfl, by omega, by omega, fun x hx => hx,
      fun _ => rfl, fun _ => rfl, id, id⟩

/-- A `cont` step strictly advances the index (the loop makes progress). -/
lemma parseSynStep_cont_lt {opts : List Nat} {isAck : Bool} {i : Nat} {s : TCPSynOptions}
    {ks : List Nat} {i' : Nat} {s' : TCPSynOptions} {ks' : List Nat}
    (h : parseSynStep opts isAck i s ks = .cont i' s' ks') : i < i' ∧ i' ≤ opts.length := by
  rcases parseSynStep_spec opts isAck i s ks with hd | ⟨j, t, kt, hc, h1, h2, _⟩
  · rw [hd] at h; exact absurd h (by simp)
  · rw [hc] at h
    obtain ⟨hj, _, _⟩ := ParseStep.cont.inj h
    subst hj
    exact ⟨h1, h2⟩

/-- The loop of `header.ParseSynOptions`, iterating `parseSynStep`. -/
def parseSynLoop (opts : List Nat) (isAck : Bool) :
    Nat → TCPSynOptions → List Nat → Option (TCPSynOptions × List Nat)
  | i, synOpts, kinds =>
    match h : parseSynStep opts isAck i synOpts kinds with
    | .done r k => some (r, k)
    | .oob => none
    | .cont i' s' ks' =>
      have := parseSynStep_cont_lt h
      parseSynLoop opts isAck i' s' ks'
  termination_by i => opts.length - i
  decreasing_by omega

/-- `header.ParseSynOptions` (with the consumed-kind ghost output). -/
def ParseSynOptions (opts : List Nat) (isAck : Bool) : Option (TCPSynOptions × List Nat) :=
  parseSynLoop opts isAck 0 synOptsDefault []

/-! ## Route matching (src/unnamed/part_028, RouteEntry.Match;
src/unnamed/part_014, Stack.FindRoute) -/

/-- `types.RouteEntry` (addresses as byte lists). -/
structure RouteEntry where
  Destination : List Nat
  Mask : List Nat
  Gateway : List Nat
  Nic : Nat
deriving Repr, DecidableEq

/-- The byte loop of `RouteEntry.Match`: for `i` in `[i₀, Destination.length)`
check `(addr[i] & Mask[i]) == Destination[i]`.  `addr[i]` is safe after the
length guard; `Mask[i]` is embedded bounds-checked (`none` = Go panic). -/
def matchLoop (r : RouteEntry) (addr : List Nat) : Nat → Option Bool
  | i =>
    if h : i < r.Destination.length then
      match addr.get? i, r.Mask.get? i, r.Destination.get? i with
      | some a, some m, some d =>
        if a &&& m ≠ d then some false else matchLoop r addr (i + 1)
      | _, _, _ => none
    else
      some true
  termination_by i => r.Destination.length - i

/-- `RouteEntry.Match(addr)`: length guard, then the byte loop. -/
def RouteEntry.Match (r : RouteEntry) (addr : List Nat) : Option Bool :=
  if addr.length ≠ r.Destination.length then some false
  else matchLoop r addr 0

/-- The route-selection loop of `Stack.FindRoute`, restricted to the route
table: an entry is skipped when `id ≠ 0 ∧ id ≠ entry.Nic`, when `Match`
fails, or when the entry's NIC does not resolve to a usable network
endpoint (`s.nics[..] == nil` or no primary endpoint); `nicResolves`
abstracts the NIC lookup.  Returns the first surviving entry (from which
the code builds the returned route), `none` when the table is exhausted
(`ErrNoRoute`). -/
def findRouteEntry (table : List RouteEntry) (nicResolves : Nat → Bool) (id : Nat)
    (remote : List Nat) : Option RouteEntry :=
  match table with
  | [] => none
  | e :: rest =>
    if (id ≠ 0 ∧ id ≠ e.Nic) ∨ e.Match remote ≠ some true then
      findRouteEntry rest nicResolves id remote
    else if ¬ nicResolves e.Nic then
      findRouteEntry rest nicResolves id remote
    else
      some e

/-! ## SYN cookies (src/stack/transport_demuxer.go) -/

/-- `tsLen`: bits of timestamp in the cookie. -/
def tsLen : Nat := 8
/-- `tsMask = (1 << tsLen) - 1`. -/
def tsMask : Nat := (1 <<< tsLen) - 1
/-- `tsOffset`: bit offset of the timestamp in the cookie. -/
def tsOffset : Nat := 24
/-- `hashMask = (1 << tsOffset) - 1`. -/
def hashMask : Nat := (1 <<< tsOffset) - 1
/-- `maxTSDiff`: maximum allowed timestamp age of a cookie, in ticks. -/
def maxTSDiff : Nat := 2

/-- `mssTable`: the MSS values encodable in the cookie's two data bits. -/
def mssTable : List Nat := [536, 1300, 1440, 1460]

/-- The downward loop of `encodeMSS`: for `i` from `len(mssTable)-1` down
to `1`, return the first `i` with `mss ≥ mssTable[i]`; otherwise 0. -/
def encodeMSSLoop (mss : Nat) : Nat → Nat
  | 0 => 0
  | i + 1 => if mss ≥ mssTable.getD (i + 1) 0 then i + 1 else encodeMSSLoop mss i

/-- `encodeMSS`: quantise an MSS into a 2-bit index into `mssTable`. -/
def encodeMSS (mss : Nat) : Nat := encodeMSSLoop mss (mssTable.length - 1)

/-- `listenContext.createCookie(id, seq, data)`.  The SHA-1–based
`cookieHash(id, ts, nonceIndex)` depends only on the connection id and
the listener's random nonces, which are fixed while a listen context
lives; it is abstracted as an arbitrary function `hash ts nonceIndex`
(quantifying over `hash` quantifies over every id and nonce pair).
`tsC` is the 8-bit timestamp at creation (`timeStamp()`), `irs` the
client's initial sequence number, `data` the encoded MSS.  All `uint32`
arithmetic is mod `tcpW`. -/
def createCookie (hash : Nat → Nat → Nat) (irs data tsC : Nat) : Nat :=
  ((hash 0 0 + irs + (tsC <<< tsOffset)) % tcpW + (((hash tsC 1 + data) % tcpW) &&& hashMask)) % tcpW

/-- `listenContext.isCookieValid(id, cookie, seq)` at validation
timestamp `tsV`: recover `v = cookie - hash(id,0,0) - seq`, extract the
creation timestamp from the top 8 bits, reject when it is more than
`maxTSDiff` ticks old (8-bit wrap-around), else return the recovered
24-bit data and `true`. -/
def isCookieValid (hash : Nat → Nat → Nat) (irs cookie tsV : Nat) : Nat × Bool :=
  let v := seqSub (seqSub cookie (hash 0 0)) irs
  let cookieTS := v >>> tsOffset
  if (seqSub tsV cookieTS) &&& tsMask > maxTSDiff then
    (0, false)
  else
    ((seqSub v (hash cookieTS 1)) &&& hashMask, true)

/-! ## Port manager (ports package; the file is concatenated into
src/network/ipv4/ipv4.go lines 141-288) -/

/-- `firstEphemeral`. -/
def firstEphemeral : Nat := 16000

/-- `anyIPAddress`: the wildcard address, the empty string. -/
def anyIPAddress : String := ""

/-- `portDescriptor`: (network protocol, transport protocol, port). -/
abbrev PortDescriptor := Nat × Nat × Nat

/-- The port manager's `allocatedPorts` map, viewed as a total function
from descriptors to the (possibly empty) list of bound addresses.  A
missing Go map key is the empty bucket under this view, which makes Go's
`delete` of an emptied bucket a no-op, and makes the absent-key skip in
`reserveSpecifiedPort` coincide with `isAvailable` on the empty bucket
(which is always true). -/
def PMState := PortDescriptor → List String

/-- Errors of the port manager. -/
inductive PortErr where
  | portInUse
  | noPortAvailable
deriving Repr, DecidableEq

/-- `bindAddresses.isAvailable(addr)`: the wildcard is free only in an
empty bucket; any other address is free when neither the wildcard nor
the address itself is bound. -/
def isAvailable (b : List String) (addr : String) : Bool :=
  if addr = anyIPAddress then b.isEmpty
  else !(b.contains anyIPAddress) && !(b.contains addr)

/-- Set insertion (`m[addr] = struct{}{}`). -/
def bucketInsert (addr : String) (b : List String) : List String :=
  if b.contains addr then b else addr :: b

/-- Set removal (`delete(m, addr)`). -/
def bucketErase (addr : String) (b : List String) : List String :=
  b.filter (fun a => a != addr)

/-- `PortManager.reserveSpecifiedPort`: check that `addr` is available in
the `(n, transport, port)` bucket of every requested network protocol
`n`; if so bind `addr` in all those buckets.  The state is unchanged on
failure (the Go code returns before any write). -/
def reserveSpecifiedPort (st : PMState) (networks : List Nat) (t : Nat) (addr : String)
    (port : Nat) : Bool × PMState :=
  if networks.all (fun n => isAvailable (st (n, t, port)) addr) then
    (true, fun dsc =>
      if dsc.2.1 = t ∧ dsc.2.2 = port ∧ dsc.1 ∈ networks then bucketInsert addr (st dsc)
      else st dsc)
  else
    (false, st)

/-- `PortManager.PickEphemeralPort` specialised to the `testPort` closure
that `ReservePort` passes it: starting from a random `offset`, try the
`count = 65535 − 16000 + 1` candidate ephemeral ports in order,
reserving the first available one; `none` models `ErrNoPortAvailable`.
A failed probe leaves the state untouched. -/
def pickEphemeralLoop (st : PMState) (networks : List Nat) (t : Nat) (addr : String)
    (offset : Nat) : Nat → Nat → Option Nat × PMState
  | _, 0 => (none, st)
  | i, fuel + 1 =>
    let count := 65535 - firstEphemeral + 1
    let p := firstEphemeral + (offset + i) % count
    match reserveSpecifiedPort st networks t addr p with
    | (true, st') => (some p, st')
    | (false, _) => pickEphemeralLoop st networks t addr offset (i + 1) fuel

/-- `PortManager.ReservePort`: a non-zero port is reserved directly
(`PortInUse` on conflict); port 0 allocates an ephemeral port from the
random `offset`. -/
def ReservePort (st : PMState) (networks : List Nat) (t : Nat) (addr : String)
    (port : Nat) (offset : Nat) : Except PortErr Nat × PMState :=
  if port ≠ 0 then
    match reserveSpecifiedPort st networks t addr port with
    | (true, st') => (.ok port, st')
    | (false, _) => (.error .portInUse, st)
  else
    match pickEphemeralLoop st networks t addr offset 0 (65535 - firstEphemeral + 1) with
    | (some p, st') => (.ok p, st')
    | (none, _) => (.error .noPortAvailable, st)

/-- `PortManager.ReleasePort`: unbind `addr` from the `(n, transport,
port)` bucket of every requested network protocol. -/
def ReleasePort (st : PMState) (networks : List Nat) (t : Nat) (addr : String)
    (port : Nat) : PMState :=
  fun dsc =>
    if dsc.2.1 = t ∧ dsc.2.2 = port ∧ dsc.1 ∈ networks then bucketErase addr (st dsc)
    else st dsc

/-! ## TCP sender (src/unnamed/part_021; `handleWrite` in
src/transport/tcp/connect.go lines 528-552)

The sender state models the fields of `sender` that the three worker
operations `sendData`, `sender.handleRcvdSegment` and
`endpoint.handleWrite` read or write.  Timing fields (`lastSendTime`,
`srtt`, `rttvar`, `rto`, `rttMeasureSeqNum`, `rttMeasureTime`),
`dupAckCount`, `maxPayloadSize`, `maxSentAck` and `closed` are carried
by none of these operations' sequence-number logic and are omitted.
`sendSegment` only emits the packet on the wire (and recomputes the
receiver's advertised window); it touches no sender field and is
modelled as a no-op. -/

/-- A segment on the sender's write list.  `assigned = false` is Go
`flags == 0` (no sequence number assigned yet); `sendData` sets
`flagAck` on assignment and additionally `flagFin` (here `fin`) for
zero-payload segments.  `size` is `data.Size()`. -/
structure SSegment where
  assigned : Bool
  fin : Bool
  seq : Nat
  size : Nat
deriving Repr, DecidableEq

/-- `segment.logicalLen`: data size plus one if the segment carries FIN.
Modelled from the spec: `logicalLen = data.size + (FIN ? 1 : 0) +
(SYN ? 1 : 0)`; the function's own file is not among the sources, and
SYN segments never enter a connected endpoint's write list. -/
def logicalLen (s : SSegment) : Nat := s.size + (if s.fin then 1 else 0)

/-- The contribution of one queued segment of payload size `n` to
`sndBufInQueue`: `Write` adds `len(v) ≥ 1` for a data segment and
`Shutdown(Write)` adds 1 for its zero-payload FIN marker, so the
counter always holds the sum of `contrib` over the queued sizes. -/
def contrib (n : Nat) : Nat := if n = 0 then 1 else n

/-- A fresh unassigned segment as `Write`/`Shutdown` queue it
(`newSegmentFromView`: zero `flags`, zero `sequenceNumber`). -/
def mkQueuedSeg (n : Nat) : SSegment :=
  { assigned := false, fin := false, seq := 0, size := n }

/-- The sender fields used by the modelled operations.  `writeNext` is
an index into `writeList` (`none` = Go `nil`). -/
structure Sender where
  sndWnd : Nat
  sndUna : Nat
  sndNxt : Nat
  sndNxtList : Nat
  sndWndScale : Nat
  writeList : List SSegment
  writeNext : Option Nat
deriving Repr, DecidableEq

/-- `newSender(ep, iss, irs, sndWnd, mss, sndWndScale)`: all three
sequence cursors start at `iss + 1`; a non-positive peer scale is stored
as zero. -/
def newSender (iss sndWnd : Nat) (sndWndScale : Int) : Sender :=
  { sndWnd := sndWnd
    sndUna := seqAdd iss 1
    sndNxt := seqAdd iss 1
    sndNxtList := seqAdd iss 1
    sndWndScale := if sndWndScale > 0 then sndWndScale.toNat else 0
    writeList := []
    writeNext := none }

/-- The `for seg = s.writeNext; seg != nil; seg = seg.Next()` loop of
`sendData`.  `endSeq = sndUna + sndWnd`; `wn0` is the value `writeNext`
keeps on the early-`return` path (the window cannot fit the segment);
`pre` accumulates the already-visited prefix of the write list.  The
returned components are the new `sndNxt`, the rewritten list and the
final `writeNext` (`none` after completing the list, the break position
when the next segment's sequence number falls outside the window). -/
def sendLoop (endSeq : Nat) (wn0 : Option Nat) :
    Nat → List SSegment → List SSegment → Nat × List SSegment × Option Nat
  | nxt, pre, [] => (nxt, pre, none)
  | nxt, pre, seg :: rest =>
    -- flags == 0: assign the current sndNxt and the ACK flag
    let seg1 := if seg.assigned then seg else { seg with assigned := true, seq := nxt }
    if seg1.size = 0 then
      -- zero payload: this is a FIN; flags := FIN|ACK, consumes one
      -- sequence number, no window check
      let seg2 := { seg1 with fin := true }
      let segEnd := seqAdd seg2.seq 1
      let nxt' := if seqLessThan nxt segEnd then segEnd else nxt
      sendLoop endSeq wn0 nxt' (pre ++ [seg2]) rest
    else
      if ¬ seqLessThan seg1.seq endSeq then
        -- break: the segment starts at or beyond sndUna + sndWnd
        (nxt, pre ++ seg1 :: rest, some pre.length)
      else
        let available := seqSize seg1.seq endSeq
        if seg1.size > available then
          -- early return: segment larger than the remaining window;
          -- writeNext keeps its pre-call value
          (nxt, pre ++ seg1 :: rest, wn0)
        else
          let segEnd := seqAdd seg1.seq seg1.size
          let nxt' := if seqLessThan nxt segEnd then segEnd else nxt
          sendLoop endSeq wn0 nxt' (pre ++ [seg1]) rest

/-- `sender.sendData`. -/
def Sender.sendData (s : Sender) : Sender :=
  let endSeq := seqAdd s.sndUna s.sndWnd
  match s.writeNext with
  | none => s
  | some i =>
    let r := sendLoop endSeq (some i) s.sndNxt (s.writeList.take i) (s.writeList.drop i)
    { s with sndNxt := r.1, writeList := r.2.1, writeNext := r.2.2 }

/-- `endpoint.handleWrite`: move the pending send queue (peer sizes `q`,
one entry per queued segment; 0 is a FIN marker) to the back of the
write list, advance `sndNxtList` by the moved `sndBufInQueue` (the sum
of `contrib` over the queue), point `writeNext` at the first moved
segment if it was nil, then push out new packets with `sendData`. -/
def Sender.handleWrite (s : Sender) (q : List Nat) : Sender :=
  let s1 :=
    if q = [] then s
    else
      { s with
        writeList := s.writeList ++ q.map mkQueuedSeg
        sndNxtList := seqAdd s.sndNxtList (q.map contrib).sum
        writeNext := match s.writeNext with
          | none => some s.writeList.length
          | some i => some i }
  s1.sendData

/-- The acknowledgement-trimming loop of `sender.handleRcvdSegment`:
remove fully covered segments from the front of the write list, trim the
first partially covered one (its data is cut but — as in the source —
its `sequenceNumber` is not advanced).  Returns the remaining list and
the number of removed segments; `none` is the Go nil-dereference panic
that would occur if the acknowledged byte count exceeded the list's
total logical length. -/
def removeAcked : List SSegment → Nat → Option (List SSegment × Nat)
  | l, 0 => some (l, 0)
  | [], _ + 1 => none
  | seg :: rest, ackLeft + 1 =>
    let dataLen := logicalLen seg
    if dataLen > ackLeft + 1 then
      some ({ seg with size := seg.size - (ackLeft + 1) } :: rest, 0)
    else
      match removeAcked rest (ackLeft + 1 - dataLen) with
      | none => none
      | some (l', k) => some (l', k + 1)

/-- `sender.handleRcvdSegment`, given the received segment's parsed
16-bit `window` field and `ackNumber`.  The window is stashed as is —
`sndWndScale` is not applied (see C4).  The ACK is processed when
`(ack − 1) ∈ [sndUna, sndNxt)`.

`writeNext` modelling note: the source does not adjust `writeNext` when
the trimming loop removes segments.  `ilist.Remove` leaves the removed
node's own `next` pointer intact, so a stale `writeNext` chains through
the removed (fully acknowledged) segments and rejoins the live list at
its front; visiting a fully acknowledged segment in `sendData` can only
retransmit it (its end precedes `sndUna`, so neither `sndNxt` nor the
break/return conditions fire on it within a window-sized distance of
the live sequence space).  The index form of that pointer is therefore
`i - k` with saturating subtraction: the stale pointer is equivalent to
the front of the live list. -/
def Sender.handleRcvdSegment (s : Sender) (window ack : Nat) : Option Sender :=
  let s0 := { s with sndWnd := window }
  if seqInRange (seqSub ack 1) s0.sndUna s0.sndNxt then
    let acked := seqSize s0.sndUna ack
    match removeAcked s0.writeList acked with
    | none => none
    | some (lrest, k) =>
      some { s0 with
        sndUna := ack
        writeList := lrest
        writeNext := s0.writeNext.map (fun i => i - k) }
  else
    some s0

/-- The worker operations of a connected endpoint that touch the sender
(claim C3): `handleWrite` carries the sizes queued by `Write`/`Shutdown`
since the last call; `handleRcvd` carries the incoming segment's window
field and ack number. -/
inductive SndOp where
  | sendData
  | handleWrite (q : List Nat)
  | handleRcvd (window ack : Nat)

/-- One worker step. -/
def sndStep (s : Sender) : SndOp → Option Sender
  | .sendData => some s.sendData
  | .handleWrite q => some (s.handleWrite q)
  | .handleRcvd w a => s.handleRcvdSegment w a

/-- Write volume of an operation (bytes/sequence numbers added to
`sndNxtList`). -/
def opWrites : SndOp → Nat
  | .handleWrite q => (q.map contrib).sum
  | _ => 0

/-- Admissible runs: the cumulative queued volume respects the
endpoint's send-buffer regime (≤ 2^30; the endpoint caps buffered bytes
at `sndBufSize`, 208 KiB by default), and received segments carry a
16-bit window field and a 32-bit ack number as parsed from the TCP
header. -/
def opsAdmissible (ops : List SndOp) : Prop :=
  (ops.map opWrites).sum ≤ 2 ^ 30 ∧
  ∀ op ∈ ops, match op with
    | SndOp.handleRcvd w a => w < 2 ^ 16 ∧ a < tcpW
    | _ => True

/-- The C3 run property, checked after every operation: each step
succeeds (no panic), `sndUna` and `sndNxt` never move backwards in
sequence-number order, and `sndUna ≤ sndNxt ≤ sndNxtList` holds in the
state the step produces. -/
def okRun : Sender → List SndOp → Prop
  | _, [] => True
  | s, op :: rest => ∃ s', sndStep s op = some s' ∧
      seqLe s.sndUna s'.sndUna ∧ seqLe s.sndNxt s'.sndNxt ∧
      seqLe s'.sndUna s'.sndNxt ∧ seqLe s'.sndNxt s'.sndNxtList ∧
      okRun s' rest

/-! ### Ideal (unbounded) counterpart of the sender

To reason about the mod-`2^32` state machine, each reachable sender
state is exhibited as the image of an *ideal* state whose sequence
fields are absolute natural numbers (no wrap-around); all distances
that occur stay far below `2^31`, so every 32-bit comparison of the
code agrees with the ideal comparison.  The ideal operations mirror the
embedded ones line for line with plain arithmetic. -/

/-- Ideal sender state: absolute (unbounded) sequence numbers. -/
structure ISender where
  wnd : Nat
  una : Nat
  nxt : Nat
  nxtList : Nat
  wndScale : Nat
  list : List SSegment
  wnext : Option Nat

/-- Projection of an ideal segment to 32-bit sequence space. -/
def projSeg (g : SSegment) : SSegment := { g with seq := g.seq % tcpW }

/-- Projection of an ideal sender to the embedded 32-bit state. -/
def projSender (s : ISender) : Sender :=
  { sndWnd := s.wnd
    sndUna := s.una % tcpW
    sndNxt := s.nxt % tcpW
    sndNxtList := s.nxtList % tcpW
    sndWndScale := s.wndScale
    writeList := s.list.map projSeg
    writeNext := s.wnext }

/-- `sendLoop` over absolute sequence numbers. -/
def isendLoop (endSeq : Nat) (wn0 : Option Nat) :
    Nat → List SSegment → List SSegment → Nat × List SSegment × Option Nat
  | nxt, pre, [] => (nxt, pre, none)
  | nxt, pre, seg :: rest =>
    let seg1 := if seg.assigned then seg else { seg with assigned := true, seq := nxt }
    if seg1.size = 0 then
      let seg2 := { seg1 with fin := true }
      let segEnd := seg2.seq + 1
      let nxt' := if nxt < segEnd then segEnd else nxt
      isendLoop endSeq wn0 nxt' (pre ++ [seg2]) rest
    else
      if ¬ (seg1.seq < endSeq) then
        (nxt, pre ++ seg1 :: rest, some pre.length)
      else if seg1.size > endSeq - seg1.seq then
        (nxt, pre ++ seg1 :: rest, wn0)
      else
        let segEnd := seg1.seq + seg1.size
        let nxt' := if nxt < segEnd then segEnd else nxt
        isendLoop endSeq wn0 nxt' (pre ++ [seg1]) rest

/-- `sendData` over absolute sequence numbers. -/
def ISender.sendData (s : ISender) : ISender :=
  match s.wnext with
  | none => s
  | some i =>
    let r := isendLoop (s.una + s.wnd) (some i) s.nxt (s.list.take i) (s.list.drop i)
    { s with nxt := r.1, list := r.2.1, wnext := r.2.2 }

/-- `handleWrite` over absolute sequence numbers. -/
def ISender.handleWrite (s : ISender) (q : List Nat) : ISender :=
  let s1 :=
    if q = [] then s
    else
      { s with
        list := s.list ++ q.map mkQueuedSeg
        nxtList := s.nxtList + (q.map contrib).sum
        wnext := match s.wnext with
          | none => some s.list.length
          | some i => some i }
  s1.sendData

/-- `sender.handleRcvdSegment` over absolute sequence numbers; the ack
is an absolute value. -/
def ISender.handleRcvd (s : ISender) (window a : Nat) : Option ISender :=
  let s0 := { s with wnd := window }
  if s0.una + 1 ≤ a ∧ a ≤ s0.nxt then
    match removeAcked s0.list (a - s0.una) with
    | none => none
    | some (lrest, k) =>
      some { s0 with
        una := a
        list := lrest
        wnext := s0.wnext.map (fun i => i - k) }
  else
    some s0

/-- A fully sent segment: numbered, its claimed range `[seq, seq +
logicalLen)` ends at or before `sndNxt`, nonempty, and FIN only with an
empty payload. -/
def sentSeg (base nxt : Nat) (g : SSegment) : Prop :=
  g.assigned = true ∧ base ≤ g.seq ∧ g.seq + logicalLen g ≤ nxt ∧
  1 ≤ logicalLen g ∧ (g.fin = true → g.size = 0)

/-- The (at most one) numbered-but-unsent segment: it was assigned the
current `sndNxt` by a pass that then hit the window limit. -/
def xSeg (nxt nxtList : Nat) (g : SSegment) : Prop :=
  g.assigned = true ∧ g.fin = false ∧ 1 ≤ g.size ∧ g.seq = nxt ∧
  nxt + g.size ≤ nxtList

/-- A queued, not-yet-numbered segment (zero `flags`, zero sequence
number, as `Write`/`Shutdown` create them). -/
def uSeg (g : SSegment) : Prop :=
  g.assigned = false ∧ g.fin = false ∧ g.seq = 0

/-- The reachability invariant of ideal sender states.  The write list
splits into fully sent segments, at most one numbered-but-unsent
segment starting exactly at `sndNxt`, and unnumbered queued segments;
the sent segments' logical lengths cover at least the in-flight range;
the pending segments fit exactly within `sndNxtList`; `writeNext` never
points beyond the sent prefix (and is nil only when nothing is
pending). -/
def IInv (base : Nat) (s : ISender) : Prop :=
  ∃ a0 x u,
    s.list = a0 ++ x ++ u ∧
    (∀ g ∈ a0, sentSeg base s.nxt g) ∧
    (x = [] ∨ ∃ X, x = [X] ∧ xSeg s.nxt s.nxtList X) ∧
    (∀ g ∈ u, uSeg g) ∧
    base ≤ s.una ∧ s.una ≤ s.nxt ∧ s.nxt ≤ s.nxtList ∧
    s.nxt - s.una ≤ (a0.map logicalLen).sum ∧
    s.nxt + (x.map SSegment.size).sum + (u.map (fun g => contrib g.size)).sum ≤ s.nxtList ∧
    (s.wnext = none → x = [] ∧ u = []) ∧
    (∀ i, s.wnext = some i → i ≤ a0.length) ∧
    s.wnd < 2 ^ 16

/-! ## Receiver model: `receiver` (src/unnamed/part_020) and
`endpoint.readyToRead` (src/unnamed/part_016) -/

/-- An incoming TCP segment as the receiver sees it: its sequence number
and its payload size (`s.data.Size()`). -/
structure RSegment where
  seq : Nat
  size : Nat
deriving Repr, DecidableEq

/-- The receiver fields used by segment handling (`pendingRcvdSegments`
is only touched by the out-of-order path, which `handleRcvdSegment` as
committed never takes). -/
structure Receiver where
  rcvNxt : Nat
  rcvAcc : Nat
  closed : Bool
deriving Repr, DecidableEq

/-- The endpoint fields touched by `readyToRead`: the ready-to-deliver
list, `rcvBufUsed`, `rcvClosed`, and whether `waiterQueue.Notify(EventIn)`
was called. -/
structure REndpoint where
  rcvList : List RSegment
  rcvBufUsed : Nat
  rcvClosed : Bool
  notified : Bool
deriving Repr, DecidableEq

/-- `endpoint.readyToRead`: enqueue the segment (or mark the receive
side closed for `nil`) and wake readers via the waiter queue. -/
def readyToRead (e : REndpoint) (s : Option RSegment) : REndpoint :=
  match s with
  | some seg =>
    { e with
        rcvBufUsed := e.rcvBufUsed + seg.size
        rcvList := e.rcvList ++ [seg]
        notified := true }
  | none => { e with rcvClosed := true, notified := true }

/-- `receiver.acceptable` (RFC 793 page 26 test). -/
def Receiver.acceptable (r : Receiver) (segSeq segLen : Nat) : Bool :=
  let rcvWnd := seqSize r.rcvNxt r.rcvAcc
  if rcvWnd = 0 then decide (segLen = 0) && decide (segSeq = r.rcvNxt)
  else seqInWindow segSeq r.rcvNxt rcvWnd || seqOverlap r.rcvNxt rcvWnd segSeq segLen

/-- `receiver.consumeSegment`: if the payload covers `rcvNxt`, trim the
head to start at `rcvNxt` and hand the segment to `readyToRead`.  The
receiver's own fields are returned exactly as the source leaves them. -/
def consumeSegment (r : Receiver) (e : REndpoint) (seg : RSegment) :
    Bool × Receiver × REndpoint :=
  if 0 < seg.size then
    if ¬ seqInWindow r.rcvNxt seg.seq seg.size then (false, r, e)
    else
      let diff := seqSize seg.seq r.rcvNxt
      let seg' := if seqLessThan seg.seq r.rcvNxt then
          { seq := seqAdd seg.seq diff, size := seg.size - diff }
        else seg
      (true, r, readyToRead e (some seg'))
  else
    if seg.seq = r.rcvNxt then (true, r, e) else (false, r, e)

/-- `receiver.handleRcvdSegment`: drop everything when closed or not
acceptable, otherwise run `consumeSegment` (whose state effects remain
whether or not the segment could be consumed). -/
def Receiver.handleRcvdSegment (r : Receiver) (e : REndpoint) (seg : RSegment) :
    Receiver × REndpoint :=
  if r.closed then (r, e)
  else if ¬ r.acceptable seg.seq seg.size then (r, e)
  else
    let c := consumeSegment r e seg
    (c.2.1, c.2.2)

/-! ## Endpoint error bookkeeping: `endpoint.GetSockOpt`
(src/unnamed/part_016) and `endpoint.resetConnection`
(src/transport/tcp/connect.go) -/

/-- The endpoint states of interest for error reporting. -/
inductive EPState where
  | connected
  | error
deriving Repr, DecidableEq

/-- The endpoint fields involved: `state`, `hardError` (stored by
`resetConnection`) and `lastError` (read and cleared by `GetSockOpt`). -/
structure ErrEndpoint where
  state : EPState
  hardError : Option String
  lastError : Option String
deriving Repr, DecidableEq

/-- `endpoint.resetConnection`: enter the error state and record the
fatal error in `hardError`. -/
def resetConnection (e : ErrEndpoint) (err : String) : ErrEndpoint :=
  { e with state := EPState.error, hardError := some err }

/-- `endpoint.GetSockOpt` with `types.ErrorOption`: return `lastError`
and clear it. -/
def GetSockOptError (e : ErrEndpoint) : Option String × ErrEndpoint :=
  (e.lastError, { e with lastError := none })

end Yustack

namespace Yustack

/-! ### SYN option parser: main loop lemma -/

/-- The parser loop never fails (never reads out of bounds), its
consumed-kind list only grows, an `MSS`/`WS` field differing from the
accumulator implies the corresponding option was consumed, and the
running `WS` stays in `[-1, 14]`. -/
lemma parseSynLoop_spec (opts : List Nat) (isAck : Bool) :
    ∀ i s ks, ∃ r k, parseSynLoop opts isAck i s ks = some (r, k) ∧
      (∀ x, x ∈ ks → x ∈ k) ∧
      (TCPOptionMSS ∉ k → r.MSS = s.MSS) ∧
      (TCPOptionWS ∉ k → r.WS = s.WS) ∧
      (s.WS ≤ 14 → r.WS ≤ 14) ∧
      (-1 ≤ s.WS → -1 ≤ r.WS) := by
  have H : ∀ n i, opts.length - i ≤ n → ∀ s ks,
      ∃ r k, parseSynLoop opts isAck i s ks = some (r, k) ∧
        (∀ x, x ∈ ks → x ∈ k) ∧
        (TCPOptionMSS ∉ k → r.MSS = s.MSS) ∧
        (TCPOptionWS ∉ k → r.WS = s.WS) ∧
        (s.WS ≤ 14 → r.WS ≤ 14) ∧
        (-1 ≤ s.WS → -1 ≤ r.WS) := by
    intro n
    induction n with
    | zero =>
      intro i hi s ks
      rw [parseSynLoop]
      split
      case h_1 r k heq =>
        rcases parseSynStep_spec opts isAck i s ks with hd | ⟨i', s', ks', hc, _⟩
        · rw [hd] at heq
          obtain ⟨hr, hk⟩ := ParseStep.done.inj heq
          subst hr; subst hk
          exact ⟨s, ks, rfl, fun x hx => hx, fun _ => rfl, fun _ => rfl, id, id⟩
        · rw [hc] at heq
          simp at heq
      case h_2 heq =>
        rcases parseSynStep_spec opts isAck i s ks with hd | ⟨i', s', ks', hc, _⟩ <;>
          [rw [hd] at heq; rw [hc] at heq] <;> simp at heq
      case h_3 i' s' ks' heq =>
        obtain ⟨hlt, hle⟩ := parseSynStep_cont_lt heq
        omega
    | succ n IH =>
      intro i hi s ks
      rw [parseSynLoop]
      split
      case h_1 r k heq =>
        rcases parseSynStep_spec opts isAck i s ks with hd | ⟨i', s', ks', hc, _⟩
        · rw [hd] at heq
          obtain ⟨hr, hk⟩ := ParseStep.done.inj heq
          subst hr; subst hk
          exact ⟨s, ks, rfl, fun x hx => hx, fun _ => rfl, fun _ => rfl, id, id⟩
        · rw [hc] at heq
          simp at heq
      case h_2 heq =>
        rcases parseSynStep_spec opts isAck i s ks with hd | ⟨i', s', ks', hc, _⟩ <;>
          [rw [hd] at heq; rw [hc] at heq] <;> simp at heq
      case h_3 i' s' ks' heq =>
        rcases parseSynStep_spec opts isAck i s ks with hd |
          ⟨j, t, kt, hc, hlt, hle, hgrow, hmss, hws, hclamp, hlb⟩
        · rw [hd] at heq
          simp at heq
        · rw [hc] at heq
          obtain ⟨hj, ht, hkt⟩ := ParseStep.cont.inj heq
          subst hj; subst ht; subst hkt
          obtain ⟨r, k, hrun, hgrow', hmss', hws', hclamp', hlb'⟩ :=
            IH j (by omega) t kt
          refine ⟨r, k, hrun, fun x hx => hgrow' x (hgrow x hx), ?_, ?_,
            fun hws14 => hclamp' (hclamp hws14), fun hm1 => hlb' (hlb hm1)⟩
          · intro hnm
            rw [hmss' hnm]
            exact hmss fun hmem => hnm (hgrow' _ hmem)
          · intro hnm
            rw [hws' hnm]
            exact hws fun hmem => hnm (hgrow' _ hmem)
  exact fun i => H (opts.length - i) i (le_refl _)

/-- If the first step terminates, the loop returns its result. -/
lemma parseSynLoop_eq_done {opts : List Nat} {isAck : Bool} {i : Nat} {s : TCPSynOptions}
    {ks : List Nat} {r : TCPSynOptions} {k : List Nat}
    (h : parseSynStep opts isAck i s ks = .done r k) :
    parseSynLoop opts isAck i s ks = some (r, k) := by
  rw [parseSynLoop]
  split
  case h_1 r' k' heq =>
    rw [h] at heq
    obtain ⟨hr, hk⟩ := ParseStep.done.inj heq
    rw [hr, hk]
  case h_2 heq => rw [h] at heq; simp at heq
  case h_3 i' s' ks' heq => rw [h] at heq; simp at heq

/-- If the first step continues, the loop proceeds from the new state. -/
lemma parseSynLoop_eq_cont {opts : List Nat} {isAck : Bool} {i : Nat} {s : TCPSynOptions}
    {ks : List Nat} {i' : Nat} {s' : TCPSynOptions} {ks' : List Nat}
    (h : parseSynStep opts isAck i s ks = .cont i' s' ks') :
    parseSynLoop opts isAck i s ks = parseSynLoop opts isAck i' s' ks' := by
  rw [parseSynLoop]
  split
  case h_1 r' k' heq => rw [h] at heq; simp at heq
  case h_2 heq => rw [h] at heq; simp at heq
  case h_3 j t kt heq =>
    rw [h] at heq
    obtain ⟨hj, ht, hkt⟩ := ParseStep.cont.inj heq
    subst hj; subst ht; subst hkt
    rfl

/-- A recognised option kind (MSS, WS or TS) whose length byte is wrong
for that kind makes the very first step of the parser terminate with the
accumulators unchanged: parsing is aborted. -/
lemma parseSynStep_malformed_known (b : Nat) (hb : b = TCPOptionMSS ∨ b = TCPOptionWS ∨ b = TCPOptionTS)
    (rest : List Nat) (isAck : Bool) (s : TCPSynOptions) (ks : List Nat) :
    parseSynStep (b :: 5 :: rest) isAck 0 s ks = .done s ks := by
  unfold parseSynStep
  rw [if_pos (by simp)]
  simp only [List.get?_cons_zero, List.get?_cons_succ]
  rcases hb with rfl | rfl | rfl
  · rw [if_neg (by decide), if_neg (by decide), if_pos rfl]
    by_cases h4 : 0 + 4 > (TCPOptionMSS :: 5 :: rest).length
    · rw [if_pos h4]
    · rw [if_neg h4]
      simp only [List.length_cons] at h4
      obtain ⟨x2, hx2⟩ := get?_lt (l := rest) (i := 0) (by omega)
      obtain ⟨x3, hx3⟩ := get?_lt (l := rest) (i := 1) (by omega)
      simp only [List.get?_cons_zero, List.get?_cons_succ, hx2, hx3]
      try dsimp only
      rw [if_pos (by decide)]
  · rw [if_neg (by decide), if_neg (by decide), if_neg (by decide), if_pos rfl]
    by_cases h3 : 0 + 3 > (TCPOptionWS :: 5 :: rest).length
    · rw [if_pos h3]
    · rw [if_neg h3]
      simp only [List.length_cons] at h3
      obtain ⟨x2, hx2⟩ := get?_lt (l := rest) (i := 0) (by omega)
      simp only [List.get?_cons_zero, List.get?_cons_succ, hx2]
      try dsimp only
      rw [if_pos (by decide)]
  · rw [if_neg (by decide), if_neg (by decide), if_neg (by decide), if_neg (by decide),
      if_pos rfl]
    by_cases h10 : 0 + 10 > (TCPOptionTS :: 5 :: rest).length
    · rw [if_pos h10]
    · rw [if_neg h10]
      simp only [List.length_cons] at h10
      obtain ⟨x1, hx1⟩ := get?_lt (l := rest) (i := 0) (by omega)
      obtain ⟨v2, hv2⟩ := @be32At_isSome (TCPOptionTS :: 5 :: rest) 2
        (by simp only [List.length_cons]; omega)
      obtain ⟨v6, hv6⟩ := @be32At_isSome (TCPOptionTS :: 5 :: rest) 6
        (by simp only [List.length_cons]; omega)
      simp only [List.get?_cons_zero, List.get?_cons_succ, hx1, hv2, hv6]
      try dsimp only
      rw [if_pos (by decide)]

/-- An unrecognised option kind whose length byte is below 2 makes the
very first step of the parser terminate: parsing is aborted. -/
lemma parseSynStep_malformed_unknown (l : Nat) (hl : l < 2) (rest : List Nat) (isAck : Bool)
    (s : TCPSynOptions) (ks : List Nat) :
    parseSynStep (77 :: l :: rest) isAck 0 s ks = .done s ks := by
  unfold parseSynStep
  rw [if_pos (by simp)]
  simp only [List.get?_cons_zero, List.get?_cons_succ]
  rw [if_neg (by decide), if_neg (by decide), if_neg (by decide), if_neg (by decide),
    if_neg (by decide)]
  by_cases h2 : 0 + 2 > (77 :: l :: rest).length
  · rw [if_pos h2]
  · rw [if_neg h2]
    rw [if_pos (Or.inl hl)]

/-- C6. `ParseSynOptions` (a) never reads past the end of the options
buffer (the parse always yields a result), (b) returns `MSS = 536` when
no MSS option was consumed and `WS = −1` when no window-scale option was
consumed, with `WS` always clamped into `[−1, 14]`; (c) a recognised
option with a malformed length byte, and an unknown option with length
byte `< 2`, abort parsing at once and return the defaults, whatever bytes
follow; and (d) a window-scale value above 14 is clamped to 14 (shown on
the option bytes `[3, 3, 20]`). -/
theorem parseSynOptions_spec (opts : List Nat) (isAck : Bool) :
    (∃ r k, ParseSynOptions opts isAck = some (r, k) ∧
      (TCPOptionMSS ∉ k → r.MSS = 536) ∧
      (TCPOptionWS ∉ k → r.WS = -1) ∧
      -1 ≤ r.WS ∧ r.WS ≤ 14) ∧
    (∀ b rest, opts = b :: 5 :: rest →
      (b = TCPOptionMSS ∨ b = TCPOptionWS ∨ b = TCPOptionTS) →
      ParseSynOptions opts isAck = some (synOptsDefault, [])) ∧
    (∀ l rest, opts = 77 :: l :: rest → l < 2 →
      ParseSynOptions opts isAck = some (synOptsDefault, [])) ∧
    (opts = [3, 3, 20] →
      ParseSynOptions opts isAck = some ({ synOptsDefault with WS := 14 }, [TCPOptionWS])) := by
  refine ⟨?_, ?_, ?_, ?_⟩
  · obtain ⟨r, k, hrun, _, hmss, hws, hclamp, hlb⟩ :=
      parseSynLoop_spec opts isAck 0 synOptsDefault []
    exact ⟨r, k, hrun, fun h => hmss h, fun h => hws h,
      hlb (by rw [synOptsDefault]), hclamp (by rw [synOptsDefault]; norm_num)⟩
  · intro b rest hopts hb
    subst hopts
    exact parseSynLoop_eq_done (parseSynStep_malformed_known b hb rest isAck _ _)
  · intro l rest hopts hl
    subst hopts
    exact parseSynLoop_eq_done (parseSynStep_malformed_unknown l hl rest isAck _ _)
  · intro hopts
    subst hopts
    have h1 : parseSynStep [3, 3, 20] isAck 0 synOptsDefault [] =
        .cont 3 { synOptsDefault with WS := 14 } [TCPOptionWS] := by
      cases isAck <;> rfl
    have h2 : parseSynStep [3, 3, 20] isAck 3 { synOptsDefault with WS := 14 }
        [TCPOptionWS] = .done { synOptsDefault with WS := 14 } [TCPOptionWS] := by
      cases isAck <;> rfl
    rw [ParseSynOptions, parseSynLoop_eq_cont h1, parseSynLoop_eq_done h2]

/-- Witness for C6 at the concrete buffers `[3, 3, 20]` (window scale 20,
clamped) and `[2, 5, 9]` (malformed MSS length). -/
theorem parseSynOptions_spec_witness :
    ParseSynOptions [3, 3, 20] false = some ({ synOptsDefault with WS := 14 }, [TCPOptionWS]) ∧
    ParseSynOptions [2, 5, 9] true = some (synOptsDefault, []) :=
  ⟨(parseSynOptions_spec [3, 3, 20] false).2.2.2 rfl,
   (parseSynOptions_spec [2, 5, 9] true).2.1 2 [9] rfl (Or.inl rfl)⟩

/-! ### Route matching: theorems -/

/-- The byte loop of `Match` computes exactly the masked-equality test on
the remaining indices (and never faults when `Mask` is as long as
`Destination` and `addr` passed the length guard). -/
lemma matchLoop_spec (r : RouteEntry) (addr : List Nat)
    (haddr : addr.length = r.Destination.length)
    (hmask : r.Mask.length = r.Destination.length) :
    ∀ i, matchLoop r addr i =
      some (decide (∀ j, i ≤ j → j < r.Destination.length →
        addr.getD j 0 &&& r.Mask.getD j 0 = r.Destination.getD j 0)) := by
  have H : ∀ n i, r.Destination.length - i ≤ n →
      matchLoop r addr i =
        some (decide (∀ j, i ≤ j → j < r.Destination.length →
          addr.getD j 0 &&& r.Mask.getD j 0 = r.Destination.getD j 0)) := by
    intro n
    induction n with
    | zero =>
      intro i hi
      rw [matchLoop]
      rw [dif_neg (by omega)]
      have : (∀ j, i ≤ j → j < r.Destination.length →
          addr.getD j 0 &&& r.Mask.getD j 0 = r.Destination.getD j 0) := by
        intro j hij hj
        omega
      rw [decide_eq_true this]
    | succ n IH =>
      intro i hi
      rw [matchLoop]
      by_cases hlt : i < r.Destination.length
      · rw [dif_pos hlt]
        obtain ⟨a, ha⟩ := get?_lt (l := addr) (i := i) (by omega)
        obtain ⟨m, hm⟩ := get?_lt (l := r.Mask) (i := i) (by omega)
        obtain ⟨d, hd⟩ := get?_lt (l := r.Destination) (i := i) (by omega)
        rw [ha, hm, hd]
        dsimp only
        have hga : addr.getD i 0 = a := by
          rw [List.getD_eq_getElem?_getD, ← List.get?_eq_getElem?, ha]; rfl
        have hgm : r.Mask.getD i 0 = m := by
          rw [List.getD_eq_getElem?_getD, ← List.get?_eq_getElem?, hm]; rfl
        have hgd : r.Destination.getD i 0 = d := by
          rw [List.getD_eq_getElem?_getD, ← List.get?_eq_getElem?, hd]; rfl
        by_cases hne : a &&& m ≠ d
        · rw [if_pos hne]
          have : ¬(∀ j, i ≤ j → j < r.Destination.length →
              addr.getD j 0 &&& r.Mask.getD j 0 = r.Destination.getD j 0) := by
            intro hall
            have := hall i le_rfl hlt
            rw [hga, hgm, hgd] at this
            exact hne this
          rw [decide_eq_false this]
        · rw [if_neg hne]
          push_neg at hne
          rw [IH (i + 1) (by omega)]
          congr 1
          have : (∀ j, i + 1 ≤ j → j < r.Destination.length →
              addr.getD j 0 &&& r.Mask.getD j 0 = r.Destination.getD j 0) ↔
            (∀ j, i ≤ j → j < r.Destination.length →
              addr.getD j 0 &&& r.Mask.getD j 0 = r.Destination.getD j 0) := by
            constructor
            · intro hall j hij hj
              rcases Nat.eq_or_lt_of_le hij with rfl | hij'
              · rw [hga, hgm, hgd]; exact hne
              · exact hall j hij' hj
            · intro hall j hij hj
              exact hall j (by omega) hj
          rw [decide_eq_decide]
          exact this
      · rw [dif_neg hlt]
        have : (∀ j, i ≤ j → j < r.Destination.length →
            addr.getD j 0 &&& r.Mask.getD j 0 = r.Destination.getD j 0) := by
          intro j hij hj
          omega
        rw [decide_eq_true this]
  exact fun i => H (r.Destination.length - i) i (le_refl _)

/-- C7. `RouteEntry.Match(addr)` returns `true` exactly when every byte of
`addr`, masked with `Mask`, equals the corresponding `Destination` byte
(for well-formed entries whose mask has the destination's length and an
address passing the length guard); and route selection returns the first
matching entry of the table: when every entry's NIC resolves and no NIC
is forced (`id = 0`), `FindRoute`'s scan is `List.find?` of `Match`. -/
theorem routeMatch_iff_first_wins (r : RouteEntry) (addr : List Nat)
    (haddr : addr.length = r.Destination.length)
    (hmask : r.Mask.length = r.Destination.length)
    (table : List RouteEntry) (nicResolves : Nat → Bool) (remote : List Nat)
    (hnics : ∀ e ∈ table, nicResolves e.Nic = true) :
    (r.Match addr = some true ↔
      ∀ i, i < r.Destination.length →
        addr.getD i 0 &&& r.Mask.getD i 0 = r.Destination.getD i 0) ∧
    findRouteEntry table nicResolves 0 remote =
      table.find? (fun e => e.Match remote == some true) := by
  constructor
  · rw [RouteEntry.Match, if_neg (by omega)]
    rw [matchLoop_spec r addr haddr hmask 0]
    simp only [Option.some.injEq, decide_eq_true_eq]
    constructor
    · intro hall i hi
      exact hall i (Nat.zero_le i) hi
    · intro hall i _ hi
      exact hall i hi
  · induction table with
    | nil => rfl
    | cons e rest IHt =>
      rw [findRouteEntry, List.find?]
      have hresolve : nicResolves e.Nic = true := hnics e (List.mem_cons_self _ _)
      by_cases hmatch : e.Match remote = some true
      · rw [if_neg (by simp [hmatch]), if_neg (by simp [hresolve])]
        simp [hmatch]
      · rw [if_pos (by simp [hmatch])]
        have : (e.Match remote == some true) = false := by
          simp only [beq_eq_false_iff_ne, ne_eq]
          exact hmatch
        rw [this]
        exact IHt fun e' he' => hnics e' (List.mem_cons_of_mem _ he')

/-- Witness for C7: a concrete matching entry (`10.0.0.0/255.0.0.0`
against `10.1.2.3`) in a one-entry table whose NIC resolves. -/
theorem routeMatch_iff_first_wins_witness :
    ((RouteEntry.mk [10, 0, 0, 0] [255, 0, 0, 0] [0, 0, 0, 0] 1).Match [10, 1, 2, 3] = some true ↔
      ∀ i, i < ([10, 0, 0, 0] : List Nat).length →
        ([10, 1, 2, 3] : List Nat).getD i 0 &&& ([255, 0, 0, 0] : List Nat).getD i 0 =
          ([10, 0, 0, 0] : List Nat).getD i 0) ∧
    findRouteEntry [RouteEntry.mk [10, 0, 0, 0] [255, 0, 0, 0] [0, 0, 0, 0] 1]
        (fun _ => true) 0 [10, 1, 2, 3] =
      [RouteEntry.mk [10, 0, 0, 0] [255, 0, 0, 0] [0, 0, 0, 0] 1].find?
        (fun e => e.Match [10, 1, 2, 3] == some true) :=
  routeMatch_iff_first_wins (RouteEntry.mk [10, 0, 0, 0] [255, 0, 0, 0] [0, 0, 0, 0] 1)
    [10, 1, 2, 3] (by decide) (by decide)
    [RouteEntry.mk [10, 0, 0, 0] [255, 0, 0, 0] [0, 0, 0, 0] 1]
    (fun _ => true) [10, 1, 2, 3] (by intro e _; rfl)

/-! ### Prependable: theorems -/

/-- C10. A failed `Prepend` (requested size exceeds `usedIdx`) returns
`nil` and leaves the buffer observably unchanged. -/
theorem prepend_fail_unchanged (p : Prependable) (n : Nat) (h : n > p.usedIdx) :
    p.Prepend n = (none, p) ∧
    (p.Prepend n).2.usedIdx = p.usedIdx ∧
    (p.Prepend n).2.UsedLength = p.UsedLength ∧
    (p.Prepend n).2.UsedBytes = p.UsedBytes := by
  have : p.Prepend n = (none, p) := by
    unfold Prependable.Prepend
    simp [h]
  refine ⟨this, ?_, ?_, ?_⟩ <;> rw [this]

/-- Witness for C10 at a concrete buffer. -/
theorem prepend_fail_unchanged_witness :
    (NewPrependable 3).Prepend 5 = (none, NewPrependable 3) ∧
    ((NewPrependable 3).Prepend 5).2.usedIdx = (NewPrependable 3).usedIdx ∧
    ((NewPrependable 3).Prepend 5).2.UsedLength = (NewPrependable 3).UsedLength ∧
    ((NewPrependable 3).Prepend 5).2.UsedBytes = (NewPrependable 3).UsedBytes :=
  prepend_fail_unchanged (NewPrependable 3) 5 (by decide)

/-! ### Handshake retransmission: theorems -/

/-- C8. With no completing reply, the handshake retransmission timer
follows exponential backoff starting at 1 second (waits 1, 2, 4, 8, 16,
32, each twice the previous), and the handshake fails with `Timeout`
exactly at the first timer firing at which the total time spent exceeds
60 seconds: every proper prefix of the waits sums to at most 60 seconds,
and the full sequence sums to 63 > 60 seconds. -/
theorem handshake_backoff_timeout :
    handshakeWaits = [1, 2, 4, 8, 16, 32] ∧
    handshakeWaits.headD 0 = 1 ∧
    (∀ i, i + 1 < handshakeWaits.length →
      handshakeWaits.getD (i + 1) 0 = 2 * handshakeWaits.getD i 0) ∧
    handshakeWaits.sum = 63 ∧ handshakeWaits.sum > 60 ∧
    (∀ n, n < handshakeWaits.length → ((handshakeWaits.take n).sum ≤ 60)) := by
  have hw : handshakeWaits = [1, 2, 4, 8, 16, 32] := by decide
  refine ⟨hw, by rw [hw]; rfl, ?_, by rw [hw]; rfl, by rw [hw]; decide, ?_⟩
  · intro i hi
    rw [hw] at hi ⊢
    simp only [List.length_cons, List.length_nil] at hi
    have hi' : i < 5 := by omega
    interval_cases i <;> rfl
  · intro n hn
    rw [hw] at hn ⊢
    simp only [List.length_cons, List.length_nil] at hn
    have hn' : n < 6 := by omega
    interval_cases n <;> decide

/-- Witness for C8: the second wait doubles the first and the prefix
before the failing firing stays within 60 seconds. -/
theorem handshake_backoff_timeout_witness :
    handshakeWaits.getD 1 0 = 2 * handshakeWaits.getD 0 0 ∧
    (handshakeWaits.take 5).sum ≤ 60 :=
  ⟨handshake_backoff_timeout.2.2.1 0 (by decide),
   handshake_backoff_timeout.2.2.2.2.2 5 (by decide)⟩

/-! ### SYN cookie: theorems -/

/-- The encoded MSS fits in two bits. -/
lemma encodeMSS_lt (mss : Nat) : encodeMSS mss < 4 := by
  simp only [encodeMSS, encodeMSSLoop, mssTable]
  split_ifs <;> norm_num

/-- C2. SYN-cookie round trip: validating a cookie created for `(id, irs,
encodeMSS mss)` recovers exactly the encoded MSS data with `true`
whenever the 8-bit timestamp has advanced by at most `maxTSDiff = 2`
ticks since creation, and returns `false` when it has advanced by more.
The SHA-1 `cookieHash` is abstracted by an arbitrary `uint32`-valued
function of `(timestamp, nonceIndex)` — quantifying over it covers every
transport-endpoint id and every nonce pair — and the two `timeStamp()`
readings (creation `tsC`, validation `tsV`) are the 8-bit masked values
the code produces. -/
theorem synCookie_roundtrip (hash : Nat → Nat → Nat)
    (hh0 : hash 0 0 < tcpW) (hh1 : ∀ t, hash t 1 < tcpW)
    (irs mss tsC tsV : Nat) (hirs : irs < tcpW) (htsC : tsC < 256) (htsV : tsV < 256) :
    isCookieValid hash irs (createCookie hash irs (encodeMSS mss) tsC) tsV =
      if (tsV + 256 - tsC) % 256 ≤ maxTSDiff then (encodeMSS mss, true)
      else (0, false) := by
  have hmask24 : hashMask = 2 ^ 24 - 1 := by decide
  have hmask8 : tsMask = 2 ^ 8 - 1 := by decide
  have hdlt : encodeMSS mss < 4 := encodeMSS_lt mss
  set d := encodeMSS mss with hd
  have hh1c : hash tsC 1 < tcpW := hh1 tsC
  -- the low 24 bits stored in the cookie
  set L : Nat := (hash tsC 1 + d) % 16777216 with hL
  have hLlt : L < 16777216 := Nat.mod_lt _ (by norm_num)
  -- the cookie and the recovered value v
  have hcookie : createCookie hash irs d tsC =
      ((hash 0 0 + irs + tsC * 2 ^ 24) % tcpW + L) % tcpW := by
    rw [createCookie, Nat.shiftLeft_eq, hmask24, Nat.and_pow_two_sub_one_eq_mod]
    rw [tsOffset, hL]
    congr 1
    rw [tcpW]
    omega
  have hv : seqSub (seqSub (createCookie hash irs d tsC) (hash 0 0)) irs =
      tsC * 2 ^ 24 + L := by
    rw [hcookie]
    simp only [seqSub, tcpW] at *
    omega
  have hts : (tsC * 2 ^ 24 + L) >>> tsOffset = tsC := by
    rw [Nat.shiftRight_eq_div_pow, tsOffset]
    omega
  have hage : (seqSub tsV tsC) &&& tsMask = (tsV + 256 - tsC) % 256 := by
    rw [hmask8, Nat.and_pow_two_sub_one_eq_mod]
    simp only [seqSub, tcpW]
    omega
  have hdata : (seqSub (tsC * 2 ^ 24 + L) (hash tsC 1)) &&& hashMask = d := by
    rw [hmask24, Nat.and_pow_two_sub_one_eq_mod]
    simp only [seqSub, tcpW]
    omega
  rw [isCookieValid]
  simp only [hv, hts, hage, hdata, maxTSDiff]
  by_cases hval : (tsV + 256 - tsC) % 256 ≤ 2
  · rw [if_neg (by omega), if_pos hval]
  · rw [if_pos (by omega), if_neg hval]

/-! ### Port manager: theorems -/

/-- An address is never available in a bucket it was just inserted in. -/
lemma isAvailable_bucketInsert_self (addr : String) (b : List String) :
    isAvailable (bucketInsert addr b) addr = false := by
  rw [bucketInsert, isAvailable]
  by_cases hmem : b.contains addr
  · rw [if_pos hmem]
    split_ifs with hany
    · subst hany
      rcases b with _ | ⟨x, xs⟩
      · simp at hmem
      · rfl
    · simp only [Bool.and_eq_false_iff]
      right
      simpa using hmem
  · rw [if_neg hmem]
    split_ifs with hany
    · rfl
    · simp

/-- An available address is not in the bucket. -/
lemma isAvailable_not_mem {b : List String} {addr : String}
    (h : isAvailable b addr = true) : addr ∉ b := by
  rw [isAvailable] at h
  split_ifs at h with hany
  · subst hany
    rw [List.isEmpty_iff] at h
    simp [h]
  · simp only [Bool.and_eq_true, Bool.not_eq_true'] at h
    simpa using h.2

/-- Erasing an address just inserted into a bucket not containing it
restores the bucket. -/
lemma bucketErase_bucketInsert {addr : String} {b : List String} (h : addr ∉ b) :
    bucketErase addr (bucketInsert addr b) = b := by
  rw [bucketInsert, if_neg (by simpa using h), bucketErase, List.filter]
  simp only [bne_self_eq_false]
  exact List.filter_eq_self.2 fun a ha => by
    simp only [bne_iff_ne, ne_eq]
    rintro rfl
    exact h ha

/-- Successful reservation: the availability check passed on every
requested protocol and the new state binds `addr` in those buckets. -/
lemma reserveSpecifiedPort_success {st : PMState} {networks : List Nat} {t : Nat}
    {addr : String} {p : Nat} {st' : PMState}
    (h : reserveSpecifiedPort st networks t addr p = (true, st')) :
    (∀ n ∈ networks, isAvailable (st (n, t, p)) addr = true) ∧
    st' = fun dsc =>
      if dsc.2.1 = t ∧ dsc.2.2 = p ∧ dsc.1 ∈ networks then bucketInsert addr (st dsc)
      else st dsc := by
  rw [reserveSpecifiedPort] at h
  split_ifs at h with hall
  · obtain ⟨-, hst⟩ := Prod.mk.inj h
    exact ⟨List.all_eq_true.1 hall, hst.symm⟩
  · simp at h

/-- A successful ephemeral allocation only ever picks a port whose
availability check passed against the unmodified starting state (failed
probes do not mutate it). -/
lemma pickEphemeralLoop_avail {st : PMState} {networks : List Nat} {t : Nat}
    {addr : String} {offset : Nat} :
    ∀ fuel i q st'', pickEphemeralLoop st networks t addr offset i fuel = (some q, st'') →
      ∀ n ∈ networks, isAvailable (st (n, t, q)) addr = true := by
  intro fuel
  induction fuel with
  | zero =>
    intro i q st'' h
    simp [pickEphemeralLoop] at h
  | succ fuel IH =>
    intro i q st'' h
    rw [pickEphemeralLoop] at h
    rcases hrs : reserveSpecifiedPort st networks t addr
        (firstEphemeral + (offset + i) % (65535 - firstEphemeral + 1)) with ⟨ok, stN⟩
    rw [hrs] at h
    cases ok with
    | true =>
      simp only [Option.some.injEq, Prod.mk.injEq] at h
      obtain ⟨hq, -⟩ := h
      subst hq
      exact (reserveSpecifiedPort_success hrs).1
    | false =>
      exact IH (i + 1) q st'' h

/-- C5 counterexample. As literally stated — "for every network-protocol
list" — the claim fails: with the empty protocol list, a reservation of
port 80 succeeds, and the identical second reservation succeeds again
instead of failing with `PortInUse` (the availability loop and the
binding loop both iterate over no protocols). -/
theorem reservePort_empty_networks_counterexample :
    (ReservePort (fun _ => []) [] 6 "" 80 0).1 = .ok 80 ∧
    (ReservePort ((ReservePort (fun _ => []) [] 6 "" 80 0).2) [] 6 "" 80 0).1 = .ok 80 :=
  ⟨rfl, rfl⟩

/-- C5 (amended: non-empty protocol list). After a successful
`ReservePort(networks, t, addr, p)` with `p ≠ 0`: an identical call
fails with `PortInUse`; `ReleasePort` restores the exact prior state, so
the same reservation succeeds again with the same result; and an
ephemeral allocation (`port = 0`) only returns a port whose
`(netProto, transProto, port)` bucket had no conflicting reservation for
`addr` in the starting state, for every requested protocol. -/
theorem reservePort_reuse_release (st : PMState) (networks : List Nat) (t : Nat)
    (addr : String) (p offset : Nat) (hne : networks ≠ []) (hp : p ≠ 0) :
    (∀ st', ReservePort st networks t addr p offset = (.ok p, st') →
      (ReservePort st' networks t addr p offset).1 = .error .portInUse ∧
      ReleasePort st' networks t addr p = st ∧
      ReservePort (ReleasePort st' networks t addr p) networks t addr p offset =
        (.ok p, st')) ∧
    (∀ q st'', ReservePort st networks t addr 0 offset = (.ok q, st'') →
      ∀ n ∈ networks, isAvailable (st (n, t, q)) addr = true) := by
  constructor
  · intro st' hres
    rw [ReservePort, if_pos hp] at hres
    rcases hrs : reserveSpecifiedPort st networks t addr p with ⟨ok, stN⟩
    rw [hrs] at hres
    cases ok with
    | false => simp at hres
    | true =>
      simp only [Except.ok.injEq, Prod.mk.injEq] at hres
      obtain ⟨-, hst'⟩ := hres
      subst hst'
      obtain ⟨hall, hstN⟩ := reserveSpecifiedPort_success hrs
      rcases networks with _ | ⟨n0, rest⟩
      · exact absurd rfl hne
      have hbucket : stN (n0, t, p) = bucketInsert addr (st (n0, t, p)) := by
        rw [hstN]
        exact if_pos ⟨rfl, rfl, List.mem_cons_self _ _⟩
      have hfail : reserveSpecifiedPort stN (n0 :: rest) t addr p = (false, stN) := by
        rw [reserveSpecifiedPort, if_neg]
        simp only [List.all_cons, Bool.and_eq_true, not_and]
        intro hn0
        rw [hbucket, isAvailable_bucketInsert_self] at hn0
        exact absurd hn0 (by simp)
      have hrestore : ReleasePort stN (n0 :: rest) t addr p = st := by
        funext dsc
        rw [ReleasePort]
        by_cases hc : dsc.2.1 = t ∧ dsc.2.2 = p ∧ dsc.1 ∈ n0 :: rest
        · rw [if_pos hc, hstN]
          simp only [if_pos hc]
          have hdsc : dsc = (dsc.1, t, p) := by
            obtain ⟨h1, h2, -⟩ := hc
            exact Prod.ext rfl (Prod.ext h1 h2)
          rw [hdsc] at *
          exact bucketErase_bucketInsert (isAvailable_not_mem (hall dsc.1 hc.2.2))
        · rw [if_neg hc, hstN]
          simp only [if_neg hc]
      refine ⟨?_, hrestore, ?_⟩
      · rw [ReservePort, if_pos hp, hfail]
      · rw [hrestore, ReservePort, if_pos hp, hrs]
  · intro q st'' hres
    rw [ReservePort, if_neg (by simp)] at hres
    rcases hpk : pickEphemeralLoop st networks t addr offset 0
        (65535 - firstEphemeral + 1) with ⟨res, stN⟩
    rw [hpk] at hres
    cases res with
    | none => simp at hres
    | some pq =>
      simp only [Except.ok.injEq, Prod.mk.injEq] at hres
      obtain ⟨hq, -⟩ := hres
      subst hq
      exact pickEphemeralLoop_avail _ _ _ _ hpk

/-- Witness for C5 at a concrete state: empty manager, protocols `[1]`,
TCP (6), address `"a"`, port 80. -/
theorem reservePort_reuse_release_witness :
    (ReservePort ((ReservePort (fun _ => []) [1] 6 "a" 80 0).2) [1] 6 "a" 80 0).1 =
      .error .portInUse :=
  (((reservePort_reuse_release (fun _ => []) [1] 6 "a" 80 0 (by decide) (by decide)).1
    ((ReservePort (fun _ => []) [1] 6 "a" 80 0).2) rfl).1)

/-- Witness for C2 at concrete inputs: the trivial hash, `irs = 789`,
`mss = 1460`, cookie created at tick 7 and validated at tick 9 (2 ticks
later, still valid). -/
theorem synCookie_roundtrip_witness :
    isCookieValid (fun _ _ => 0) 789 (createCookie (fun _ _ => 0) 789 (encodeMSS 1460) 7) 9 =
      if (9 + 256 - 7) % 256 ≤ maxTSDiff then (encodeMSS 1460, true) else (0, false) :=
  synCookie_roundtrip (fun _ _ => 0) (by decide)
    (fun _ => show (0 : Nat) < tcpW by decide)
    789 1460 7 9 (by decide) (by decide) (by decide)

/-! ### Sequence arithmetic in a small window agrees with ideal arithmetic

All absolute values occurring in reachable sender states lie in a
window `[base, base + K]` with `K < 2^31`, where every 32-bit
comparison of the code computes the ideal comparison. -/

/-- `LessThan` on projections of window-bounded absolutes is the ideal `<`. -/
lemma seqLessThan_window {base K a b : Nat} (hK : K < tcpH)
    (ha : base ≤ a) (ha' : a ≤ base + K) (hb : base ≤ b) (hb' : b ≤ base + K) :
    seqLessThan (a % tcpW) (b % tcpW) = decide (a < b) := by
  simp only [seqLessThan, seqSub, tcpW, tcpH] at *
  rw [decide_eq_decide]
  omega

/-- `Size`/`Sub` on projections of window-bounded absolutes is the ideal
difference. -/
lemma seqSub_window {base K a b : Nat} (hK : K < tcpH)
    (ha : base ≤ a) (hb' : b ≤ base + K) (hab : a ≤ b) :
    seqSub (b % tcpW) (a % tcpW) = b - a := by
  simp only [seqSub, tcpW, tcpH] at *
  omega

/-- `Add` commutes with projection. -/
lemma seqAdd_proj (a n : Nat) : seqAdd (a % tcpW) n = (a + n) % tcpW := by
  simp only [seqAdd, tcpW]
  omega

/-- `seqLe` holds between projections of ideally ordered window-bounded
absolutes. -/
lemma seqLe_window {base K a b : Nat} (hK : K < tcpH)
    (ha : base ≤ a) (hb' : b ≤ base + K) (hab : a ≤ b) :
    seqLe (a % tcpW) (b % tcpW) := by
  rcases Nat.eq_or_lt_of_le hab with rfl | hlt
  · exact Or.inl rfl
  · right
    rw [seqLessThan_window hK ha (by omega) (by omega) hb']
    simpa using hlt

/-- `removeAcked` ignores sequence numbers, so it commutes with the
32-bit projection of the list. -/
lemma removeAcked_map_proj :
    ∀ (l : List SSegment) (n : Nat),
      removeAcked (l.map projSeg) n =
        (removeAcked l n).map (fun p => (p.1.map projSeg, p.2)) := by
  intro l
  induction l with
  | nil =>
    intro n
    cases n <;> rfl
  | cons g rest IH =>
    intro n
    cases n with
    | zero => rfl
    | succ m =>
      rw [List.map_cons, removeAcked, removeAcked]
      have hll : logicalLen (projSeg g) = logicalLen g := rfl
      rw [hll]
      by_cases hgt : logicalLen g > m + 1
      · rw [if_pos hgt, if_pos hgt]
        rfl
      · rw [if_neg hgt, if_neg hgt]
        rw [IH (m + 1 - logicalLen g)]
        rcases removeAcked rest (m + 1 - logicalLen g) with _ | ⟨l', k⟩ <;> rfl

/-- The acknowledgement-trimming loop, applied to a list starting with a
sent prefix `A` whose logical lengths cover the acknowledged count `n`,
stays inside `A`: it removes `k ≤ |A|` whole segments and possibly trims
the next one, never reaching the remainder `B`; the surviving prefix
keeps its sent-segment facts and loses exactly `n` of logical length. -/
lemma removeAcked_append {base nxt : Nat} :
    ∀ (A : List SSegment) (n : Nat), n ≤ (A.map logicalLen).sum →
      (∀ g ∈ A, sentSeg base nxt g) →
      ∃ A' k, removeAcked A n = some (A', k) ∧
        (∀ B, removeAcked (A ++ B) n = some (A' ++ B, k)) ∧
        A'.length = A.length - k ∧
        ((A'.map logicalLen).sum = (A.map logicalLen).sum - n) ∧
        (∀ g ∈ A', sentSeg base nxt g) := by
  intro A
  induction A with
  | nil =>
    intro n hn _
    simp only [List.map_nil, List.sum_nil, Nat.le_zero] at hn
    subst hn
    exact ⟨[], 0, rfl, fun B => by cases B <;> rfl, rfl, rfl, by simp⟩
  | cons g A1 IH =>
    intro n hn hA
    cases n with
    | zero =>
      refine ⟨g :: A1, 0, rfl, fun B => ?_, rfl, rfl, hA⟩
      cases hab : (g :: A1) ++ B <;> rfl
    | succ m =>
      obtain ⟨hass, hbase, hend, hlen, hfin⟩ := hA g (List.mem_cons_self _ _)
      by_cases hgt : logicalLen g > m + 1
      · -- the first segment is only partially covered: trim it
        have hfin' : g.fin = false := by
          by_contra hf
          rw [Bool.not_eq_false] at hf
          have hsz := hfin hf
          have hone : logicalLen g = 1 := by simp [logicalLen, hsz, hf]
          rw [hone] at hgt
          omega
        have h2 : logicalLen g = g.size := by
          simp [logicalLen, hfin']
        have h1 : logicalLen { g with size := g.size - (m + 1) } = g.size - (m + 1) := by
          simp [logicalLen, hfin']
        refine ⟨{ g with size := g.size - (m + 1) } :: A1, 0, ?_, ?_, rfl, ?_, ?_⟩
        · rw [removeAcked]
          simp only [hgt, if_pos]
        · intro B
          rw [List.cons_append, removeAcked]
          simp only [hgt, if_pos]
          rw [List.cons_append]
        · simp only [List.map_cons, List.sum_cons, h1, h2]
          rw [h2] at hgt
          omega
        · intro g' hg'
          rcases List.mem_cons.1 hg' with rfl | hmem
          · refine ⟨hass, hbase, ?_, ?_, ?_⟩
            · rw [h1]
              rw [h2] at hend
              simp only
              omega
            · rw [h1]
              rw [h2] at hgt
              omega
            · intro hf
              simp only at hf
              rw [hfin'] at hf
              exact absurd hf (by simp)
          · exact hA g' (List.mem_cons_of_mem _ hmem)
      · -- the first segment is fully covered: remove it and continue
        push_neg at hgt
        have hn1 : m + 1 - logicalLen g ≤ (A1.map logicalLen).sum := by
          simp only [List.map_cons, List.sum_cons] at hn
          omega
        obtain ⟨A', k, hrec, hrecB, hlen', hsum', hsent'⟩ :=
          IH (m + 1 - logicalLen g) hn1 (fun g' hg' => hA g' (List.mem_cons_of_mem _ hg'))
        refine ⟨A', k + 1, ?_, ?_, ?_, ?_, hsent'⟩
        · rw [removeAcked]
          simp only [gt_iff_lt, if_neg (by omega : ¬ logicalLen g > m + 1)]
          rw [hrec]
        · intro B
          rw [List.cons_append, removeAcked]
          simp only [gt_iff_lt, if_neg (by omega : ¬ logicalLen g > m + 1)]
          rw [hrecB B]
        · simp only [List.length_cons]
          omega
        · simp only [List.map_cons, List.sum_cons]
          omega

/-- A queued segment projects to itself (its sequence number is 0). -/
lemma projSeg_uSeg {g : SSegment} (h : uSeg g) : projSeg g = g := by
  obtain ⟨-, -, hseq⟩ := h
  cases g
  simp_all [projSeg]

/-- Sent-segment facts are stable as `sndNxt` advances. -/
lemma sentSeg_mono {base nxt nxt' : Nat} {g : SSegment} (h : nxt ≤ nxt')
    (hg : sentSeg base nxt g) : sentSeg base nxt' g :=
  ⟨hg.1, hg.2.1, le_trans hg.2.2.1 h, hg.2.2.2.1, hg.2.2.2.2⟩

/-- Appending a newly sent segment to a sent prefix. -/
lemma sentSeg_append {base nxt nxt' : Nat} {pre : List SSegment} {s : SSegment}
    (h : nxt ≤ nxt') (hpre : ∀ g ∈ pre, sentSeg base nxt g) (hs : sentSeg base nxt' s) :
    ∀ g ∈ pre ++ [s], sentSeg base nxt' g := by
  intro g hg
  rcases List.mem_append.1 hg with hmem | hmem
  · exact sentSeg_mono h (hpre g hmem)
  · rw [List.mem_singleton.1 hmem]
    exact hs

/-- One-step unfolding of the embedded send loop. -/
lemma sendLoop_cons (e : Nat) (w : Option Nat) (nxt : Nat) (pre rest : List SSegment)
    (g : SSegment) :
    sendLoop e w nxt pre (g :: rest) =
      (fun seg1 =>
        if seg1.size = 0 then
          (fun seg2 =>
            (fun nxt' => sendLoop e w nxt' (pre ++ [seg2]) rest)
            (if seqLessThan nxt (seqAdd seg2.seq 1) then seqAdd seg2.seq 1 else nxt))
          { seg1 with fin := true }
        else if ¬ seqLessThan seg1.seq e then
          (nxt, pre ++ seg1 :: rest, some pre.length)
        else if seg1.size > seqSize seg1.seq e then
          (nxt, pre ++ seg1 :: rest, w)
        else
          (fun nxt' => sendLoop e w nxt' (pre ++ [seg1]) rest)
          (if seqLessThan nxt (seqAdd seg1.seq seg1.size) then seqAdd seg1.seq seg1.size
           else nxt))
      (if g.assigned then g else { g with assigned := true, seq := nxt }) := rfl

/-- One-step unfolding of the ideal send loop. -/
lemma isendLoop_cons (e : Nat) (w : Option Nat) (nxt : Nat) (pre rest : List SSegment)
    (g : SSegment) :
    isendLoop e w nxt pre (g :: rest) =
      (fun seg1 =>
        if seg1.size = 0 then
          (fun seg2 =>
            (fun nxt' => isendLoop e w nxt' (pre ++ [seg2]) rest)
            (if nxt < seg2.seq + 1 then seg2.seq + 1 else nxt))
          { seg1 with fin := true }
        else if ¬ (seg1.seq < e) then
          (nxt, pre ++ seg1 :: rest, some pre.length)
        else if seg1.size > e - seg1.seq then
          (nxt, pre ++ seg1 :: rest, w)
        else
          (fun nxt' => isendLoop e w nxt' (pre ++ [seg1]) rest)
          (if nxt < seg1.seq + seg1.size then seg1.seq + seg1.size else nxt))
      (if g.assigned then g else { g with assigned := true, seq := nxt }) := rfl

/-- Send-loop simulation over the unnumbered suffix of the write list:
the embedded 32-bit loop computes the projection of the ideal loop, and
the resulting list decomposes again into sent / at-most-one-unsent /
queued parts with the bookkeeping the sender invariant needs. -/
lemma sendLoop_sim_u (base K una wnd nxtList : Nat)
    (hK : K + 2 ^ 16 < tcpH) (hwnd : wnd < 2 ^ 16)
    (hbu : base ≤ una) (hnl : nxtList ≤ base + K) :
    ∀ (u : List SSegment) (nxt : Nat) (pre : List SSegment) (i0 : Nat),
      (∀ g ∈ u, uSeg g) →
      (∀ g ∈ pre, sentSeg base nxt g) →
      una ≤ nxt →
      nxt + (u.map (fun g => contrib g.size)).sum ≤ nxtList →
      i0 ≤ pre.length →
      ∃ nxt' A x' u' wn',
        isendLoop (una + wnd) (some i0) nxt pre u = (nxt', A ++ (x' ++ u'), wn') ∧
        sendLoop (seqAdd (una % tcpW) wnd) (some i0) (nxt % tcpW) (pre.map projSeg)
            (u.map projSeg) = (nxt' % tcpW, (A ++ (x' ++ u')).map projSeg, wn') ∧
        nxt ≤ nxt' ∧ nxt' ≤ nxtList ∧
        (∀ g ∈ A, sentSeg base nxt' g) ∧
        (x' = [] ∨ ∃ X, x' = [X] ∧ xSeg nxt' nxtList X) ∧
        (∀ g ∈ u', uSeg g) ∧
        (A.map logicalLen).sum + nxt = (pre.map logicalLen).sum + nxt' ∧
        nxt' + (x'.map SSegment.size).sum + (u'.map (fun g => contrib g.size)).sum ≤ nxtList ∧
        (wn' = none → x' = [] ∧ u' = []) ∧
        (∀ j, wn' = some j → j ≤ A.length) := by
  intro u
  induction u with
  | nil =>
    intro nxt pre i0 _ hpre hun hbud hi0
    refine ⟨nxt, pre, [], [], none, by simp [isendLoop], by simp [sendLoop],
      le_refl _, by simpa using hbud, hpre, Or.inl rfl, by simp, by simp, by simpa using hbud,
      fun _ => ⟨rfl, rfl⟩, fun j hj => by simp at hj⟩
  | cons g u1 IH =>
    intro nxt pre i0 hu hpre hun hbud hi0
    obtain ⟨hgass, hgfin, hgseq⟩ := hu g (List.mem_cons_self _ _)
    have hu1 : ∀ g' ∈ u1, uSeg g' := fun g' hg' => hu g' (List.mem_cons_of_mem _ hg')
    have hproj : projSeg g = g := projSeg_uSeg ⟨hgass, hgfin, hgseq⟩
    have hnb : base ≤ nxt := le_trans hbu hun
    have hnK : nxt ≤ base + K := by
      have := hbud
      omega
    rw [List.map_cons, hproj, isendLoop_cons, sendLoop_cons]
    simp only [hgass, Bool.false_eq_true, if_false]
    by_cases hsz : g.size = 0
    · -- queued FIN marker: assigned, FIN'ed, sent unconditionally
      simp only [if_pos hsz]
      have hbud1 : nxt + 1 + (u1.map (fun g => contrib g.size)).sum ≤ nxtList := by
        have h := hbud
        rw [List.map_cons, List.sum_cons,
          show contrib g.size = 1 from by simp [contrib, hsz]] at h
        omega
      have hguard : nxt < nxt + 1 := by omega
      have hguardM : seqLessThan (nxt % tcpW) (seqAdd (nxt % tcpW) 1) = true := by
        rw [seqAdd_proj]
        rw [@seqLessThan_window base (K + 2 ^ 16) _ _ hK hnb (by omega)
          (by omega) (by omega)]
        simpa using hguard
      simp only [if_pos hguard, if_pos hguardM]
      have hseg2sent : sentSeg base (nxt + 1)
          { assigned := true, fin := true, seq := nxt, size := g.size } :=
        ⟨rfl, hnb, by simp [logicalLen, hsz], by simp [logicalLen], fun _ => hsz⟩
      obtain ⟨nxt', A, x', u', wn', h1, h2, h3, h4, h5, h6, h7, h8, h9, h10, h11⟩ :=
        IH (nxt + 1) _ i0 hu1 (sentSeg_append (by omega) hpre hseg2sent)
          (by omega) hbud1 (le_trans hi0 (by simp))
      refine ⟨nxt', A, x', u', wn', h1, ?_, by omega, h4, h5, h6, h7, ?_, h9, h10, h11⟩
      · rw [List.map_append, List.map_cons, List.map_nil] at h2
        rw [show projSeg { assigned := true, fin := true, seq := nxt, size := g.size } =
            { assigned := true, fin := true, seq := nxt % tcpW, size := g.size } from
            rfl] at h2
        rw [show seqAdd (nxt % tcpW) 1 = (nxt + 1) % tcpW from seqAdd_proj nxt 1]
        exact h2
      · rw [List.map_append, List.sum_append, List.map_cons, List.map_nil, List.sum_cons,
          List.sum_nil,
          show logicalLen { assigned := true, fin := true, seq := nxt, size := g.size } = 1
            from by simp [logicalLen, hsz]] at h8
        omega
    · -- queued data segment
      simp only [if_neg hsz]
      have hsz1 : 1 ≤ g.size := by omega
      have hbudg : nxt + g.size + (u1.map (fun g => contrib g.size)).sum ≤ nxtList := by
        have h := hbud
        rw [List.map_cons, List.sum_cons,
          show contrib g.size = g.size from by simp [contrib, hsz]] at h
        omega
      have heM : seqAdd (una % tcpW) wnd = (una + wnd) % tcpW := seqAdd_proj una wnd
      have hlessM : seqLessThan (nxt % tcpW) ((una + wnd) % tcpW) =
          decide (nxt < una + wnd) :=
        seqLessThan_window hK hnb (by omega) (by omega) (by omega)
      by_cases hbrk : nxt < una + wnd
      · have hbrkneg : ¬ ¬ (nxt < una + wnd) := not_not_intro hbrk
        have hbrkMneg : ¬ ¬ (seqLessThan (nxt % tcpW) (seqAdd (una % tcpW) wnd) = true) := by
          rw [heM, hlessM]
          simpa using hbrk
        simp only [if_neg hbrkneg, if_neg hbrkMneg]
        have havM : seqSize (nxt % tcpW) (seqAdd (una % tcpW) wnd) = una + wnd - nxt := by
          rw [heM, seqSize]
          exact seqSub_window (K := K + 2 ^ 16) hK hnb (by omega) (by omega)
        rw [havM]
        by_cases hav : g.size > una + wnd - nxt
        · -- early return: the window cannot fit this segment
          simp only [if_pos hav]
          refine ⟨nxt, pre, [{ g with assigned := true, seq := nxt }], u1, some i0,
            by simp, ?_, le_refl _, by omega, hpre, ?_, hu1, by simp,
            ?_, fun h => by simp at h, fun j hj => ?_⟩
          · simp only [List.map_append, List.map_cons, List.map_nil, List.singleton_append,
              List.cons_append, List.nil_append]
            rw [show projSeg { g with assigned := true, seq := nxt } =
                { g with assigned := true, seq := nxt % tcpW } from rfl]
          · exact Or.inr ⟨_, rfl, rfl, hgfin, hsz1, rfl,
              show nxt + g.size ≤ nxtList by omega⟩
          · show nxt + ([g.size].sum) + (u1.map (fun g => contrib g.size)).sum ≤ nxtList
            simp only [List.sum_cons, List.sum_nil]
            omega
          · have := Option.some.inj hj
            omega
        · -- send the segment
          simp only [if_neg hav]
          have hguard : nxt < nxt + g.size := by omega
          have hguardM : seqLessThan (nxt % tcpW) (seqAdd (nxt % tcpW) g.size) = true := by
            rw [seqAdd_proj]
            rw [@seqLessThan_window base (K + 2 ^ 16) _ _ hK hnb (by omega)
              (by omega) (by omega)]
            simpa using hguard
          simp only [if_pos hguard, if_pos hguardM]
          have hseg1sent : sentSeg base (nxt + g.size)
              { assigned := true, fin := g.fin, seq := nxt, size := g.size } := by
            refine ⟨rfl, hnb, ?_, ?_, fun hf => absurd hf (by simp [hgfin])⟩
            · simp only [logicalLen, hgfin]
              simp
            · simp only [logicalLen, hgfin]
              simp
              omega
          obtain ⟨nxt', A, x', u', wn', h1, h2, h3, h4, h5, h6, h7, h8, h9, h10, h11⟩ :=
            IH (nxt + g.size) _ i0 hu1 (sentSeg_append (by omega) hpre hseg1sent)
              (by omega) hbudg (le_trans hi0 (by simp))
          refine ⟨nxt', A, x', u', wn', h1, ?_, by omega, h4, h5, h6, h7, ?_, h9, h10, h11⟩
          · rw [List.map_append, List.map_cons, List.map_nil] at h2
            rw [show projSeg { assigned := true, fin := g.fin, seq := nxt, size := g.size } =
                { assigned := true, fin := g.fin, seq := nxt % tcpW, size := g.size } from
                rfl] at h2
            rw [show seqAdd (nxt % tcpW) g.size = (nxt + g.size) % tcpW from
              seqAdd_proj nxt g.size]
            exact h2
          · have hlog1 : logicalLen
                { assigned := true, fin := g.fin, seq := nxt, size := g.size } = g.size := by
              simp [logicalLen, hgfin]
            rw [List.map_append, List.sum_append, List.map_cons, List.map_nil,
              List.sum_cons, List.sum_nil, hlog1] at h8
            omega
      · -- break: the segment starts at or beyond the window edge
        have hbrkM : ¬ (seqLessThan (nxt % tcpW) (seqAdd (una % tcpW) wnd) = true) := by
          rw [heM, hlessM]
          simpa using hbrk
        simp only [if_pos hbrk, if_pos hbrkM]
        refine ⟨nxt, pre, [{ g with assigned := true, seq := nxt }], u1, some pre.length,
          by simp, ?_, le_refl _, by omega, hpre, ?_, hu1, by simp, ?_,
          fun h => by simp at h, fun j hj => ?_⟩
        · simp only [List.map_append, List.map_cons, List.map_nil, List.singleton_append,
            List.cons_append, List.nil_append, List.length_map]
          rw [show projSeg { g with assigned := true, seq := nxt } =
              { g with assigned := true, seq := nxt % tcpW } from rfl]
        · exact Or.inr ⟨_, rfl, rfl, hgfin, hsz1, rfl,
            show nxt + g.size ≤ nxtList by omega⟩
        · show nxt + ([g.size].sum) + (u1.map (fun g => contrib g.size)).sum ≤ nxtList
          simp only [List.sum_cons, List.sum_nil]
          omega
        · have := Option.some.inj hj
          omega

/-- Send-loop simulation when the pending part starts with the (at most
one) numbered-but-unsent segment. -/
lemma sendLoop_sim_x (base K una wnd nxtList : Nat)
    (hK : K + 2 ^ 16 < tcpH) (hwnd : wnd < 2 ^ 16)
    (hbu : base ≤ una) (hnl : nxtList ≤ base + K)
    (x u : List SSegment) (nxt : Nat) (pre : List SSegment) (i0 : Nat)
    (hx : x = [] ∨ ∃ X, x = [X] ∧ xSeg nxt nxtList X)
    (hu : ∀ g ∈ u, uSeg g)
    (hpre : ∀ g ∈ pre, sentSeg base nxt g)
    (hun : una ≤ nxt)
    (hbud : nxt + (x.map SSegment.size).sum +
      (u.map (fun g => contrib g.size)).sum ≤ nxtList)
    (hi0 : i0 ≤ pre.length) :
    ∃ nxt' A x' u' wn',
      isendLoop (una + wnd) (some i0) nxt pre (x ++ u) = (nxt', A ++ (x' ++ u'), wn') ∧
      sendLoop (seqAdd (una % tcpW) wnd) (some i0) (nxt % tcpW) (pre.map projSeg)
          ((x ++ u).map projSeg) = (nxt' % tcpW, (A ++ (x' ++ u')).map projSeg, wn') ∧
      nxt ≤ nxt' ∧ nxt' ≤ nxtList ∧
      (∀ g ∈ A, sentSeg base nxt' g) ∧
      (x' = [] ∨ ∃ X, x' = [X] ∧ xSeg nxt' nxtList X) ∧
      (∀ g ∈ u', uSeg g) ∧
      (A.map logicalLen).sum + nxt = (pre.map logicalLen).sum + nxt' ∧
      nxt' + (x'.map SSegment.size).sum + (u'.map (fun g => contrib g.size)).sum ≤ nxtList ∧
      (wn' = none → x' = [] ∧ u' = []) ∧
      (∀ j, wn' = some j → j ≤ A.length) := by
  rcases hx with rfl | ⟨X, rfl, hX⟩
  · rw [List.nil_append]
    exact sendLoop_sim_u base K una wnd nxtList hK hwnd hbu hnl u nxt pre i0 hu hpre hun
      (by simpa using hbud) hi0
  · obtain ⟨hXass, hXfin, hXsz, hXseq, hXbud⟩ := hX
    obtain ⟨Xa, Xf, Xq, Xz⟩ := X
    replace hXass : Xa = true := hXass
    replace hXfin : Xf = false := hXfin
    replace hXsz : 1 ≤ Xz := hXsz
    replace hXseq : Xq = nxt := hXseq
    replace hXbud : nxt + Xz ≤ nxtList := hXbud
    subst hXass hXfin
    rw [hXseq]
    have hnb : base ≤ nxt := le_trans hbu hun
    have hnK : nxt ≤ base + K := by omega
    rw [List.singleton_append, List.map_cons,
      show projSeg (SSegment.mk true false nxt Xz) =
        SSegment.mk true false (nxt % tcpW) Xz from rfl,
      isendLoop_cons, sendLoop_cons]
    simp only [eq_self_iff_true, if_true]
    have hXzne : ¬ (Xz = 0) := by omega
    simp only [if_neg hXzne]
    have heM : seqAdd (una % tcpW) wnd = (una + wnd) % tcpW := seqAdd_proj una wnd
    have hlessM : seqLessThan (nxt % tcpW) ((una + wnd) % tcpW) =
        decide (nxt < una + wnd) :=
      seqLessThan_window hK hnb (by omega) (by omega) (by omega)
    by_cases hbrk : nxt < una + wnd
    · have hbrkneg : ¬ ¬ (nxt < una + wnd) := not_not_intro hbrk
      have hbrkMneg : ¬ ¬ (seqLessThan (nxt % tcpW) (seqAdd (una % tcpW) wnd) = true) := by
        rw [heM, hlessM]
        simpa using hbrk
      simp only [if_neg hbrkneg, if_neg hbrkMneg]
      have havM : seqSize (nxt % tcpW) (seqAdd (una % tcpW) wnd) = una + wnd - nxt := by
        rw [heM, seqSize]
        exact seqSub_window (K := K + 2 ^ 16) hK hnb (by omega) (by omega)
      rw [havM]
      by_cases hav : Xz > una + wnd - nxt
      · -- early return: the window cannot fit the pending segment
        simp only [if_pos hav]
        refine ⟨nxt, pre, [SSegment.mk true false nxt Xz], u, some i0,
          by simp, ?_, le_refl _, by omega, hpre,
          Or.inr ⟨_, rfl, rfl, rfl, hXsz, rfl, show nxt + Xz ≤ nxtList by omega⟩, hu,
          by simp, by simpa using hbud, fun h => by simp at h, fun j hj => ?_⟩
        · simp only [List.map_append, List.map_cons, List.map_nil, List.singleton_append,
            List.cons_append, List.nil_append]
          rw [show projSeg (SSegment.mk true false nxt Xz) =
              SSegment.mk true false (nxt % tcpW) Xz from rfl]
        · have := Option.some.inj hj
          omega
      · -- send the pending segment, then continue with the queued suffix
        simp only [if_neg hav]
        have hguard : nxt < nxt + Xz := by omega
        have hguardM : seqLessThan (nxt % tcpW) (seqAdd (nxt % tcpW) Xz) = true := by
          rw [seqAdd_proj]
          rw [@seqLessThan_window base (K + 2 ^ 16) _ _ hK hnb (by omega)
            (by omega) (by omega)]
          simpa using hguard
        simp only [if_pos hguard, if_pos hguardM]
        have hXsent : sentSeg base (nxt + Xz) (SSegment.mk true false nxt Xz) :=
          ⟨rfl, hnb, by simp [logicalLen], by simp [logicalLen]; omega,
            fun hf => by simp at hf⟩
        obtain ⟨nxt', A, x', u', wn', h1, h2, h3, h4, h5, h6, h7, h8, h9, h10, h11⟩ :=
          sendLoop_sim_u base K una wnd nxtList hK hwnd hbu hnl u (nxt + Xz) _ i0 hu
            (sentSeg_append (by omega) hpre hXsent) (by omega) (by simpa using hbud)
            (le_trans hi0 (by simp))
        refine ⟨nxt', A, x', u', wn', h1, ?_, by omega, h4, h5, h6, h7, ?_, h9, h10, h11⟩
        · rw [List.map_append, List.map_cons, List.map_nil] at h2
          rw [show projSeg (SSegment.mk true false nxt Xz) =
              SSegment.mk true false (nxt % tcpW) Xz from rfl] at h2
          rw [show seqAdd (nxt % tcpW) Xz = (nxt + Xz) % tcpW from seqAdd_proj nxt Xz]
          exact h2
        · have hlogX : logicalLen (SSegment.mk true false nxt Xz) = Xz := by
            simp [logicalLen]
          rw [List.map_append, List.sum_append, List.map_cons, List.map_nil,
            List.sum_cons, List.sum_nil, hlogX] at h8
          omega
    · -- break: the pending segment starts at or beyond the window edge
      have hbrkM : ¬ (seqLessThan (nxt % tcpW) (seqAdd (una % tcpW) wnd) = true) := by
        rw [heM, hlessM]
        simpa using hbrk
      simp only [if_pos hbrk, if_pos hbrkM]
      refine ⟨nxt, pre, [SSegment.mk true false nxt Xz], u, some pre.length,
        by simp, ?_, le_refl _, by omega, hpre,
        Or.inr ⟨_, rfl, rfl, rfl, hXsz, rfl, show nxt + Xz ≤ nxtList by omega⟩, hu,
        by simp, by simpa using hbud, fun h => by simp at h, fun j hj => ?_⟩
      · simp only [List.map_append, List.map_cons, List.map_nil, List.singleton_append,
          List.cons_append, List.nil_append, List.length_map]
        rw [show projSeg (SSegment.mk true false nxt Xz) =
            SSegment.mk true false (nxt % tcpW) Xz from rfl]
      · have := Option.some.inj hj
        omega

/-- Full send-loop simulation: starting from `writeNext` the loop may
revisit already sent segments (after an early return the pointer keeps
its pre-call value), then the pending and queued ones.  The embedded
32-bit loop computes the projection of the ideal loop and the output
decomposes as the invariant requires. -/
lemma sendLoop_sim (base K una wnd nxtList : Nat)
    (hK : K + 2 ^ 16 < tcpH) (hwnd : wnd < 2 ^ 16)
    (hbu : base ≤ una) (hnl : nxtList ≤ base + K) :
    ∀ (s2 : List SSegment) (x u : List SSegment) (nxt : Nat) (pre : List SSegment) (i0 : Nat),
      (∀ g ∈ s2, sentSeg base nxt g) →
      (x = [] ∨ ∃ X, x = [X] ∧ xSeg nxt nxtList X) →
      (∀ g ∈ u, uSeg g) →
      (∀ g ∈ pre, sentSeg base nxt g) →
      una ≤ nxt →
      nxt + (x.map SSegment.size).sum +
        (u.map (fun g => contrib g.size)).sum ≤ nxtList →
      i0 ≤ pre.length →
      ∃ nxt' A x' u' wn',
        isendLoop (una + wnd) (some i0) nxt pre (s2 ++ (x ++ u)) =
          (nxt', A ++ (x' ++ u'), wn') ∧
        sendLoop (seqAdd (una % tcpW) wnd) (some i0) (nxt % tcpW) (pre.map projSeg)
            ((s2 ++ (x ++ u)).map projSeg) = (nxt' % tcpW, (A ++ (x' ++ u')).map projSeg, wn') ∧
        nxt ≤ nxt' ∧ nxt' ≤ nxtList ∧
        (∀ g ∈ A, sentSeg base nxt' g) ∧
        (x' = [] ∨ ∃ X, x' = [X] ∧ xSeg nxt' nxtList X) ∧
        (∀ g ∈ u', uSeg g) ∧
        (A.map logicalLen).sum + nxt =
          (pre.map logicalLen).sum + (s2.map logicalLen).sum + nxt' ∧
        nxt' + (x'.map SSegment.size).sum + (u'.map (fun g => contrib g.size)).sum ≤ nxtList ∧
        (wn' = none → x' = [] ∧ u' = []) ∧
        (∀ j, wn' = some j → j ≤ A.length) := by
  intro s2
  induction s2 with
  | nil =>
    intro x u nxt pre i0 _ hx hu hpre hun hbud hi0
    rw [List.nil_append]
    obtain ⟨nxt', A, x', u', wn', h1, h2, h3, h4, h5, h6, h7, h8, h9, h10, h11⟩ :=
      sendLoop_sim_x base K una wnd nxtList hK hwnd hbu hnl x u nxt pre i0 hx hu hpre hun
        hbud hi0
    exact ⟨nxt', A, x', u', wn', h1, h2, h3, h4, h5, h6, h7, by simpa using h8, h9, h10, h11⟩
  | cons g s2r IH =>
    intro x u nxt pre i0 hs2 hx hu hpre hun hbud hi0
    have hg := hs2 g (List.mem_cons_self _ _)
    have hs2r : ∀ g' ∈ s2r, sentSeg base nxt g' :=
      fun g' hg' => hs2 g' (List.mem_cons_of_mem _ hg')
    obtain ⟨ga, gf, gq, gz⟩ := g
    obtain ⟨hass, hseqb, hcover, hlen1, hfinz⟩ := hg
    replace hass : ga = true := hass
    subst hass
    replace hseqb : base ≤ gq := hseqb
    replace hcover : gq + (gz + if gf = true then 1 else 0) ≤ nxt := hcover
    replace hlen1 : 1 ≤ gz + (if gf = true then 1 else 0) := hlen1
    replace hfinz : gf = true → gz = 0 := hfinz
    have hnb : base ≤ nxt := le_trans hbu hun
    have hnK : nxt ≤ base + K := by omega
    have hgsent : sentSeg base nxt (SSegment.mk true gf gq gz) :=
      ⟨rfl, hseqb, hcover, hlen1, hfinz⟩
    rw [List.cons_append, List.map_cons,
      show projSeg (SSegment.mk true gf gq gz) =
        SSegment.mk true gf (gq % tcpW) gz from rfl,
      isendLoop_cons, sendLoop_cons]
    simp only [eq_self_iff_true, if_true]
    cases gf with
    | true =>
      -- a sent FIN marker: re-sent unconditionally, sndNxt unchanged
      have hgz : gz = 0 := hfinz rfl
      subst hgz
      simp only [if_pos rfl]
      replace hcover : gq + 1 ≤ nxt := by
        simpa using hcover
      have hgne : ¬ (nxt < gq + 1) := by omega
      have hgMne : ¬ (seqLessThan (nxt % tcpW) (seqAdd (gq % tcpW) 1) = true) := by
        rw [seqAdd_proj]
        rw [@seqLessThan_window base (K + 2 ^ 16) _ _ hK (by omega) (by omega)
          (by omega) (by omega)]
        simpa using hgne
      simp only [if_neg hgne, if_neg hgMne]
      obtain ⟨nxt', A, x', u', wn', h1, h2, h3, h4, h5, h6, h7, h8, h9, h10, h11⟩ :=
        IH x u nxt (pre ++ [SSegment.mk true true gq 0]) i0 hs2r hx hu
          (sentSeg_append (le_refl _) hpre hgsent) hun hbud
          (le_trans hi0 (by simp))
      refine ⟨nxt', A, x', u', wn', h1, ?_, h3, h4, h5, h6, h7, ?_, h9, h10, h11⟩
      · rw [List.map_append, List.map_cons, List.map_nil] at h2
        rw [show projSeg (SSegment.mk true true gq 0) =
            SSegment.mk true true (gq % tcpW) 0 from rfl] at h2
        exact h2
      · have hlogg : logicalLen (SSegment.mk true true gq 0) = 1 := by
          simp [logicalLen]
        rw [List.map_append, List.sum_append, List.map_cons, List.map_nil,
          List.sum_cons, List.sum_nil, hlogg] at h8
        simp only [List.map_cons, List.sum_cons, hlogg]
        omega
    | false =>
      -- a sent data segment: window checks against its old sequence number
      replace hcover : gq + gz ≤ nxt := by
        simpa using hcover
      replace hlen1 : 1 ≤ gz := by
        simpa using hlen1
      have hgzne : ¬ (gz = 0) := by omega
      simp only [if_neg hgzne]
      have heM : seqAdd (una % tcpW) wnd = (una + wnd) % tcpW := seqAdd_proj una wnd
      have hlessM : seqLessThan (gq % tcpW) ((una + wnd) % tcpW) =
          decide (gq < una + wnd) :=
        seqLessThan_window hK hseqb (by omega) (by omega) (by omega)
      by_cases hbrk : gq < una + wnd
      · have hbrkneg : ¬ ¬ (gq < una + wnd) := not_not_intro hbrk
        have hbrkMneg : ¬ ¬ (seqLessThan (gq % tcpW) (seqAdd (una % tcpW) wnd) = true) := by
          rw [heM, hlessM]
          simpa using hbrk
        simp only [if_neg hbrkneg, if_neg hbrkMneg]
        have havM : seqSize (gq % tcpW) (seqAdd (una % tcpW) wnd) = una + wnd - gq := by
          rw [heM, seqSize]
          exact seqSub_window (K := K + 2 ^ 16) hK hseqb (by omega) (by omega)
        rw [havM]
        by_cases hav : gz > una + wnd - gq
        · -- early return while revisiting: everything stays pending
          simp only [if_pos hav]
          refine ⟨nxt, pre ++ SSegment.mk true false gq gz :: s2r, x, u, some i0,
            by simp, ?_, le_refl _, by omega, ?_, hx, hu, ?_,
            by simpa using hbud, fun h => by simp at h, fun j hj => ?_⟩
          · simp only [List.map_append, List.map_cons, List.append_assoc, List.cons_append]
            rw [show projSeg (SSegment.mk true false gq gz) =
                SSegment.mk true false (gq % tcpW) gz from rfl]
          · intro g' hg'
            rcases List.mem_append.1 hg' with hmem | hmem
            · exact hpre g' hmem
            · rcases List.mem_cons.1 hmem with rfl | hmem
              · exact hgsent
              · exact hs2r g' hmem
          · simp only [List.map_append, List.sum_append, List.map_cons, List.sum_cons]
          · have := Option.some.inj hj
            simp only [List.length_append, List.length_cons]
            omega
        · -- re-send the already sent segment: sndNxt does not move
          simp only [if_neg hav]
          have hgne : ¬ (nxt < gq + gz) := by omega
          have hgMne : ¬ (seqLessThan (nxt % tcpW) (seqAdd (gq % tcpW) gz) = true) := by
            rw [seqAdd_proj]
            rw [@seqLessThan_window base (K + 2 ^ 16) _ _ hK (by omega) (by omega)
              (by omega) (by omega)]
            simpa using hgne
          simp only [if_neg hgne, if_neg hgMne]
          obtain ⟨nxt', A, x', u', wn', h1, h2, h3, h4, h5, h6, h7, h8, h9, h10, h11⟩ :=
            IH x u nxt (pre ++ [SSegment.mk true false gq gz]) i0 hs2r hx hu
              (sentSeg_append (le_refl _) hpre hgsent) hun hbud
              (le_trans hi0 (by simp))
          refine ⟨nxt', A, x', u', wn', h1, ?_, h3, h4, h5, h6, h7, ?_, h9, h10, h11⟩
          · rw [List.map_append, List.map_cons, List.map_nil] at h2
            rw [show projSeg (SSegment.mk true false gq gz) =
                SSegment.mk true false (gq % tcpW) gz from rfl] at h2
            exact h2
          · have hlogg : logicalLen (SSegment.mk true false gq gz) = gz := by
              simp [logicalLen]
            rw [List.map_append, List.sum_append, List.map_cons, List.map_nil,
              List.sum_cons, List.sum_nil, hlogg] at h8
            simp only [List.map_cons, List.sum_cons, hlogg]
            omega
      · -- break while revisiting: the pointer moves back to this segment
        have hbrkM : ¬ (seqLessThan (gq % tcpW) (seqAdd (una % tcpW) wnd) = true) := by
          rw [heM, hlessM]
          simpa using hbrk
        simp only [if_pos hbrk, if_pos hbrkM]
        refine ⟨nxt, pre ++ SSegment.mk true false gq gz :: s2r, x, u, some pre.length,
          by simp, ?_, le_refl _, by omega, ?_, hx, hu, ?_,
          by simpa using hbud, fun h => by simp at h, fun j hj => ?_⟩
        · simp only [List.map_append, List.map_cons, List.append_assoc, List.cons_append,
            List.length_map]
          rw [show projSeg (SSegment.mk true false gq gz) =
              SSegment.mk true false (gq % tcpW) gz from rfl]
        · intro g' hg'
          rcases List.mem_append.1 hg' with hmem | hmem
          · exact hpre g' hmem
          · rcases List.mem_cons.1 hmem with rfl | hmem
            · exact hgsent
            · exact hs2r g' hmem
        · simp only [List.map_append, List.sum_append, List.map_cons, List.sum_cons]
        · have := Option.some.inj hj
          simp only [List.length_append, List.length_cons]
          omega

/-- `sendData` commutes with projection on invariant states and
preserves the invariant; `sndUna`, `sndNxtList`, the window and the
scale are untouched and `sndNxt` only grows. -/
lemma sendData_sim (base K : Nat) (s : ISender) (hK : K + 2 ^ 16 < tcpH)
    (hinv : IInv base s) (hnl : s.nxtList ≤ base + K) :
    (projSender s).sendData = projSender s.sendData ∧
    IInv base s.sendData ∧
    s.sendData.una = s.una ∧ s.nxt ≤ s.sendData.nxt ∧
    s.sendData.nxtList = s.nxtList ∧ s.sendData.wnd = s.wnd := by
  rcases hwn : s.wnext with _ | i
  · have hid : s.sendData = s := by
      simp only [ISender.sendData, hwn]
    have hidM : (projSender s).sendData = projSender s := by
      simp only [Sender.sendData, show (projSender s).writeNext = s.wnext from rfl, hwn]
    rw [hid, hidM]
    exact ⟨rfl, hinv, rfl, le_refl _, rfl, rfl⟩
  · obtain ⟨a0, x, u, hlist, ha0, hx, hu, hb1, hb2, hb3, hinflight, hbud, hwn_none,
      hwn_some, hwnd⟩ := hinv
    have hi : i ≤ a0.length := hwn_some i hwn
    have htake : s.list.take i = a0.take i := by
      rw [hlist, List.append_assoc, List.take_append_of_le_length hi]
    have hdrop : s.list.drop i = a0.drop i ++ (x ++ u) := by
      rw [hlist, List.append_assoc, List.drop_append_of_le_length hi]
    obtain ⟨nxt', A, x', u', wn', h1, h2, h3, h4, h5, h6, h7, h8, h9, h10, h11⟩ :=
      sendLoop_sim base K s.una s.wnd s.nxtList hK hwnd hb1 hnl (a0.drop i) x u s.nxt
        (a0.take i) i (fun g hg => ha0 g (List.drop_subset _ _ hg)) hx hu
        (fun g hg => ha0 g (List.take_subset _ _ hg)) hb2 hbud
        (by simp [List.length_take]; omega)
    have hstep : s.sendData =
        { s with nxt := nxt', list := A ++ (x' ++ u'), wnext := wn' } := by
      simp only [ISender.sendData, hwn, htake, hdrop, h1]
    have hstepM : (projSender s).sendData =
        { projSender s with
            sndNxt := nxt' % tcpW
            writeList := (A ++ (x' ++ u')).map projSeg
            writeNext := wn' } := by
      simp only [Sender.sendData, show (projSender s).writeNext = s.wnext from rfl, hwn,
        show (projSender s).writeList = s.list.map projSeg from rfl,
        show (projSender s).sndUna = s.una % tcpW from rfl,
        show (projSender s).sndWnd = s.wnd from rfl,
        show (projSender s).sndNxt = s.nxt % tcpW from rfl,
        ← List.map_take, ← List.map_drop, htake, hdrop, h2]
    have hsum : ((a0.take i).map logicalLen).sum + ((a0.drop i).map logicalLen).sum =
        (a0.map logicalLen).sum := by
      rw [← List.sum_append, ← List.map_append, List.take_append_drop]
    refine ⟨?_, ?_, ?_, ?_, ?_, ?_⟩
    · rw [hstepM, hstep]
      rfl
    · rw [hstep]
      exact ⟨A, x', u', (List.append_assoc A x' u').symm, h5, h6, h7, hb1,
        le_trans hb2 h3, h4,
        show nxt' - s.una ≤ (A.map logicalLen).sum by omega, h9, h10, h11, hwnd⟩
    · rw [hstep]
    · rw [hstep]
      exact h3
    · rw [hstep]
    · rw [hstep]

/-- `handleWrite` commutes with projection on invariant states and
preserves the invariant; `sndUna` and the window are untouched, `sndNxt`
only grows, `sndNxtList` advances by the queued volume. -/
lemma handleWrite_sim (base K : Nat) (s : ISender) (q : List Nat) (hK : K + 2 ^ 16 < tcpH)
    (hinv : IInv base s) (hnl : s.nxtList + (q.map contrib).sum ≤ base + K) :
    (projSender s).handleWrite q = projSender (s.handleWrite q) ∧
    IInv base (s.handleWrite q) ∧
    (s.handleWrite q).una = s.una ∧ s.nxt ≤ (s.handleWrite q).nxt ∧
    (s.handleWrite q).nxtList = s.nxtList + (q.map contrib).sum ∧
    (s.handleWrite q).wnd = s.wnd := by
  by_cases hq : q = []
  · subst hq
    have hid : s.handleWrite [] = s.sendData := by
      simp [ISender.handleWrite]
    have hidM : (projSender s).handleWrite [] = (projSender s).sendData := by
      simp [Sender.handleWrite]
    obtain ⟨c1, c2, c3, c4, c5, c6⟩ := sendData_sim base K s hK hinv (by simpa using hnl)
    rw [hid, hidM]
    exact ⟨c1, c2, c3, c4, by simp [c5], c6⟩
  · obtain ⟨a0, x, u, hlist, ha0, hx, hu, hb1, hb2, hb3, hinflight, hbud, hwn_none,
      hwn_some, hwnd⟩ := hinv
    have hqseg : ∀ g ∈ q.map mkQueuedSeg, uSeg g := by
      intro g hg
      obtain ⟨n, -, rfl⟩ := List.mem_map.1 hg
      exact ⟨rfl, rfl, rfl⟩
    have hqsum : ((q.map mkQueuedSeg).map (fun g => contrib g.size)).sum =
        (q.map contrib).sum := by
      rw [List.map_map]
      rfl
    have hqproj : (q.map mkQueuedSeg).map projSeg = q.map mkQueuedSeg := by
      simp [List.map_map, projSeg, mkQueuedSeg, Function.comp]
    rcases hwn : s.wnext with _ | i
    · obtain ⟨hx0, hu0⟩ := hwn_none hwn
      subst hx0 hu0
      have hstep : s.handleWrite q =
          (⟨s.wnd, s.una, s.nxt, s.nxtList + (q.map contrib).sum, s.wndScale,
            s.list ++ q.map mkQueuedSeg, some s.list.length⟩ : ISender).sendData := by
        simp only [ISender.handleWrite, if_neg hq, hwn]
      have hinv1 : IInv base
          (⟨s.wnd, s.una, s.nxt, s.nxtList + (q.map contrib).sum, s.wndScale,
            s.list ++ q.map mkQueuedSeg, some s.list.length⟩ : ISender) := by
        refine ⟨a0, [], q.map mkQueuedSeg, ?_, ha0, Or.inl rfl, hqseg, hb1, hb2,
          by show s.nxt ≤ s.nxtList + (q.map contrib).sum
             omega,
          hinflight, ?_, fun h => by simp at h, ?_, hwnd⟩
        · show s.list ++ q.map mkQueuedSeg = a0 ++ [] ++ q.map mkQueuedSeg
          rw [hlist]
          simp
        · show s.nxt + (([] : List SSegment).map SSegment.size).sum +
            ((q.map mkQueuedSeg).map (fun g => contrib g.size)).sum ≤
            s.nxtList + (q.map contrib).sum
          rw [hqsum]
          simp only [List.map_nil, List.sum_nil]
          omega
        · intro j hj
          have hj' := Option.some.inj hj
          subst hj'
          show s.list.length ≤ a0.length
          simp [hlist]
      obtain ⟨c1, c2, c3, c4, c5, c6⟩ := sendData_sim base K _ hK hinv1
        (show s.nxtList + (q.map contrib).sum ≤ base + K from hnl)
      have hstepM : (projSender s).handleWrite q =
          (projSender (⟨s.wnd, s.una, s.nxt, s.nxtList + (q.map contrib).sum, s.wndScale,
            s.list ++ q.map mkQueuedSeg, some s.list.length⟩ : ISender)).sendData := by
        simp only [Sender.handleWrite, if_neg hq,
          show (projSender s).writeNext = s.wnext from rfl, hwn]
        congr 1
        simp [projSender, List.map_append, hqproj, seqAdd_proj]
      refine ⟨?_, ?_, ?_, ?_, ?_, ?_⟩
      · rw [hstep, hstepM, c1]
      · rw [hstep]
        exact c2
      · rw [hstep]
        exact c3
      · rw [hstep]
        exact c4
      · rw [hstep]
        exact c5
      · rw [hstep]
        exact c6
    · have hstep : s.handleWrite q =
          (⟨s.wnd, s.una, s.nxt, s.nxtList + (q.map contrib).sum, s.wndScale,
            s.list ++ q.map mkQueuedSeg, some i⟩ : ISender).sendData := by
        simp only [ISender.handleWrite, if_neg hq, hwn]
      have hinv1 : IInv base
          (⟨s.wnd, s.una, s.nxt, s.nxtList + (q.map contrib).sum, s.wndScale,
            s.list ++ q.map mkQueuedSeg, some i⟩ : ISender) := by
        refine ⟨a0, x, u ++ q.map mkQueuedSeg, ?_, ha0, ?_, ?_, hb1, hb2,
          by show s.nxt ≤ s.nxtList + (q.map contrib).sum
             omega,
          hinflight, ?_, fun h => by simp at h, ?_, hwnd⟩
        · show s.list ++ q.map mkQueuedSeg = a0 ++ x ++ (u ++ q.map mkQueuedSeg)
          rw [hlist]
          simp
        · rcases hx with rfl | ⟨X, rfl, hX⟩
          · exact Or.inl rfl
          · exact Or.inr ⟨X, rfl, hX.1, hX.2.1, hX.2.2.1, hX.2.2.2.1,
              by show s.nxt + X.size ≤ s.nxtList + (q.map contrib).sum
                 have := hX.2.2.2.2
                 omega⟩
        · intro g hg
          rcases List.mem_append.1 hg with hmem | hmem
          · exact hu g hmem
          · exact hqseg g hmem
        · show s.nxt + (x.map SSegment.size).sum +
            ((u ++ q.map mkQueuedSeg).map (fun g => contrib g.size)).sum ≤
            s.nxtList + (q.map contrib).sum
          rw [List.map_append, List.sum_append, hqsum]
          omega
        · intro j hj
          have hj' := Option.some.inj hj
          subst hj'
          exact hwn_some i hwn
      obtain ⟨c1, c2, c3, c4, c5, c6⟩ := sendData_sim base K _ hK hinv1
        (show s.nxtList + (q.map contrib).sum ≤ base + K from hnl)
      have hstepM : (projSender s).handleWrite q =
          (projSender (⟨s.wnd, s.una, s.nxt, s.nxtList + (q.map contrib).sum, s.wndScale,
            s.list ++ q.map mkQueuedSeg, some i⟩ : ISender)).sendData := by
        simp only [Sender.handleWrite, if_neg hq,
          show (projSender s).writeNext = s.wnext from rfl, hwn]
        congr 1
        simp [projSender, List.map_append, hqproj, seqAdd_proj]
      refine ⟨?_, ?_, ?_, ?_, ?_, ?_⟩
      · rw [hstep, hstepM, c1]
      · rw [hstep]
        exact c2
      · rw [hstep]
        exact c3
      · rw [hstep]
        exact c4
      · rw [hstep]
        exact c5
      · rw [hstep]
        exact c6

/-- The mod-level ACK guard `(ack−1) ∈ [sndUna, sndNxt)` holds exactly
for the 32-bit residues of the ideal values in `(sndUna, sndNxt]`. -/
lemma seqInRange_ack {base K una nxt ack : Nat} (hK : K < tcpH)
    (h1 : base ≤ una) (h2 : una ≤ nxt) (h3 : nxt ≤ base + K) (hack : ack < tcpW) :
    (seqInRange (seqSub ack 1) (una % tcpW) (nxt % tcpW) = true ↔
      ∃ a, una + 1 ≤ a ∧ a ≤ nxt ∧ ack = a % tcpW) := by
  simp only [seqInRange, seqSub, tcpW, tcpH, decide_eq_true_eq] at *
  constructor
  · intro h
    refine ⟨una + 1 + ((ack + (4294967296 - 1 % 4294967296)) % 4294967296 +
      (4294967296 - una % 4294967296)) % 4294967296, by omega, by omega, by omega⟩
  · rintro ⟨a, hle, hnx, rfl⟩
    omega

/-- `handleRcvdSegment` on the projection of an invariant state succeeds
(no nil-dereference in the trimming loop) and produces the projection of
an invariant ideal state with the same `sndNxt` and `sndNxtList` and a
`sndUna` that only grows. -/
lemma handleRcvd_sim (base K : Nat) (s : ISender) (window ack : Nat) (hK : K < tcpH)
    (hinv : IInv base s) (hnl : s.nxtList ≤ base + K) (hw : window < 2 ^ 16)
    (hack : ack < tcpW) :
    ∃ s', (projSender s).handleRcvdSegment window ack = some (projSender s') ∧
      IInv base s' ∧ s.una ≤ s'.una ∧ s'.nxt = s.nxt ∧ s'.nxtList = s.nxtList := by
  obtain ⟨a0, x, u, hlist, ha0, hx, hu, hb1, hb2, hb3, hinflight, hbud, hwn_none,
    hwn_some, hwnd⟩ := hinv
  have hnK : s.nxt ≤ base + K := by omega
  have hguard_iff := @seqInRange_ack base K _ _ _ hK hb1 hb2 hnK hack
  by_cases hg : seqInRange (seqSub ack 1) (s.una % tcpW) (s.nxt % tcpW) = true
  · obtain ⟨a, ha1, ha2, hackeq⟩ := hguard_iff.1 hg
    have hackedM : seqSize (s.una % tcpW) ack = a - s.una := by
      rw [hackeq, seqSize]
      exact seqSub_window hK hb1 (by omega) (by omega)
    have hn : a - s.una ≤ (a0.map logicalLen).sum := by omega
    obtain ⟨A', k, hra, hraB, hlen, hsum, hsent⟩ := removeAcked_append a0 (a - s.una) hn ha0
    have hremove : removeAcked s.list (a - s.una) = some (A' ++ (x ++ u), k) := by
      rw [hlist, List.append_assoc]
      exact hraB (x ++ u)
    have hremoveM : removeAcked (s.list.map projSeg) (a - s.una) =
        some ((A' ++ (x ++ u)).map projSeg, k) := by
      rw [removeAcked_map_proj, hremove]
      rfl
    refine ⟨⟨window, a, s.nxt, s.nxtList, s.wndScale, A' ++ (x ++ u),
      s.wnext.map (fun i => i - k)⟩, ?_, ?_, show s.una ≤ a by omega, rfl, rfl⟩
    · simp only [Sender.handleRcvdSegment,
        show (projSender s).sndUna = s.una % tcpW from rfl,
        show (projSender s).sndNxt = s.nxt % tcpW from rfl,
        show (projSender s).writeList = s.list.map projSeg from rfl,
        show (projSender s).writeNext = s.wnext from rfl,
        hg, if_true, hackedM, hremoveM]
      simp [projSender, hackeq]
    · refine ⟨A', x, u, (List.append_assoc _ _ _).symm, hsent, hx, hu,
        show base ≤ a by omega, ha2, hb3, ?_, hbud, ?_, ?_, hw⟩
      · show s.nxt - a ≤ (A'.map logicalLen).sum
        clear * - hsum hinflight ha1 ha2 hb2
        omega
      · intro h
        exact hwn_none (Option.map_eq_none'.1 h)
      · intro j' hj'
        obtain ⟨j, hj, rfl⟩ := Option.map_eq_some'.1 hj'
        have h1 := hwn_some j hj
        clear * - h1 hlen
        omega
  · refine ⟨⟨window, s.una, s.nxt, s.nxtList, s.wndScale, s.list, s.wnext⟩, ?_, ?_,
      le_refl _, rfl, rfl⟩
    · simp only [Sender.handleRcvdSegment,
        show (projSender s).sndUna = s.una % tcpW from rfl,
        show (projSender s).sndNxt = s.nxt % tcpW from rfl,
        hg, if_false]
      simp [projSender]
    · exact ⟨a0, x, u, hlist, ha0, hx, hu, hb1, hb2, hb3, hinflight, hbud, hwn_none,
        hwn_some, hw⟩

/-- Any projection of an invariant ideal state runs admissibly: every
worker step succeeds and the monotonicity facts hold after each one. -/
lemma okRun_of_inv (base : Nat) :
    ∀ (ops : List SndOp) (s : ISender),
      IInv base s →
      s.nxtList + (ops.map opWrites).sum ≤ base + 2 ^ 30 →
      (∀ op ∈ ops, match op with
        | SndOp.handleRcvd w a => w < 2 ^ 16 ∧ a < tcpW
        | _ => True) →
      okRun (projSender s) ops := by
  have hK : (2 ^ 30 : Nat) + 2 ^ 16 < tcpH := by norm_num [tcpH]
  have hK2 : (2 ^ 30 : Nat) < tcpH := by norm_num [tcpH]
  intro ops
  induction ops with
  | nil =>
    intro s _ _ _
    trivial
  | cons op rest IH =>
    intro s hinv hbudget hbounds
    have hinv' := hinv
    obtain ⟨a0, x, u, -, -, -, -, hb1, hb2, hb3, -, -, -, -, -⟩ := hinv'
    have hbounds' : ∀ op' ∈ rest, match op' with
        | SndOp.handleRcvd w a => w < 2 ^ 16 ∧ a < tcpW
        | _ => True :=
      fun op' hop' => hbounds op' (List.mem_cons_of_mem _ hop')
    have hstepsum : (List.map opWrites (op :: rest)).sum =
        opWrites op + (List.map opWrites rest).sum := by
      simp
    cases op with
    | sendData =>
      have hnl : s.nxtList ≤ base + 2 ^ 30 := by
        rw [hstepsum] at hbudget
        omega
      obtain ⟨c1, c2, c3, c4, c5, c6⟩ := sendData_sim base (2 ^ 30) s hK hinv hnl
      have c2' := c2
      obtain ⟨-, -, -, -, -, -, -, nb1, nb2, nb3, -, -, -, -, -⟩ := c2'
      refine ⟨projSender s.sendData, ?_, ?_, ?_, ?_, ?_, ?_⟩
      · show some (projSender s).sendData = some (projSender s.sendData)
        rw [c1]
      · show seqLe (s.una % tcpW) (s.sendData.una % tcpW)
        rw [c3]
        exact Or.inl rfl
      · show seqLe (s.nxt % tcpW) (s.sendData.nxt % tcpW)
        exact @seqLe_window base _ _ _ hK2 (by omega) (by omega) c4
      · show seqLe (s.sendData.una % tcpW) (s.sendData.nxt % tcpW)
        exact @seqLe_window base _ _ _ hK2 (by omega) (by omega) nb2
      · show seqLe (s.sendData.nxt % tcpW) (s.sendData.nxtList % tcpW)
        exact @seqLe_window base _ _ _ hK2 (by omega) (by omega) nb3
      · refine IH s.sendData c2 ?_ hbounds'
        rw [c5]
        rw [hstepsum] at hbudget
        have : opWrites SndOp.sendData = 0 := rfl
        omega
    | handleWrite q =>
      have hnl : s.nxtList + (q.map contrib).sum ≤ base + 2 ^ 30 := by
        rw [hstepsum] at hbudget
        have : opWrites (SndOp.handleWrite q) = (q.map contrib).sum := rfl
        omega
      obtain ⟨c1, c2, c3, c4, c5, c6⟩ := handleWrite_sim base (2 ^ 30) s q hK hinv hnl
      have c2' := c2
      obtain ⟨-, -, -, -, -, -, -, nb1, nb2, nb3, -, -, -, -, -⟩ := c2'
      have hnl2 : (s.handleWrite q).nxtList ≤ base + 2 ^ 30 := by
        rw [c5]
        omega
      refine ⟨projSender (s.handleWrite q), ?_, ?_, ?_, ?_, ?_, ?_⟩
      · show some ((projSender s).handleWrite q) = some (projSender (s.handleWrite q))
        rw [c1]
      · show seqLe (s.una % tcpW) ((s.handleWrite q).una % tcpW)
        rw [c3]
        exact Or.inl rfl
      · show seqLe (s.nxt % tcpW) ((s.handleWrite q).nxt % tcpW)
        exact @seqLe_window base _ _ _ hK2 (by omega) (by omega) c4
      · show seqLe ((s.handleWrite q).una % tcpW) ((s.handleWrite q).nxt % tcpW)
        exact @seqLe_window base _ _ _ hK2 (by omega) (by omega) nb2
      · show seqLe ((s.handleWrite q).nxt % tcpW) ((s.handleWrite q).nxtList % tcpW)
        exact @seqLe_window base _ _ _ hK2 (by omega) (by omega) nb3
      · refine IH (s.handleWrite q) c2 ?_ hbounds'
        rw [c5]
        rw [hstepsum] at hbudget
        have : opWrites (SndOp.handleWrite q) = (q.map contrib).sum := rfl
        omega
    | handleRcvd w a =>
      have hnl : s.nxtList ≤ base + 2 ^ 30 := by
        rw [hstepsum] at hbudget
        omega
      obtain ⟨hw, ha⟩ := hbounds (SndOp.handleRcvd w a) (List.mem_cons_self _ _)
      obtain ⟨s', m1, m2, m3, m4, m5⟩ :=
        handleRcvd_sim base (2 ^ 30) s w a hK2 hinv hnl hw ha
      have m2' := m2
      obtain ⟨-, -, -, -, -, -, -, nb1, nb2, nb3, -, -, -, -, -⟩ := m2'
      refine ⟨projSender s', ?_, ?_, ?_, ?_, ?_, ?_⟩
      · show (projSender s).handleRcvdSegment w a = some (projSender s')
        exact m1
      · show seqLe (s.una % tcpW) (s'.una % tcpW)
        exact @seqLe_window base _ _ _ hK2 (by omega) (by omega) m3
      · show seqLe (s.nxt % tcpW) (s'.nxt % tcpW)
        rw [m4]
        exact Or.inl rfl
      · show seqLe (s'.una % tcpW) (s'.nxt % tcpW)
        exact @seqLe_window base _ _ _ hK2 (by omega) (by omega) nb2
      · show seqLe (s'.nxt % tcpW) (s'.nxtList % tcpW)
        exact @seqLe_window base _ _ _ hK2 (by omega) (by omega) nb3
      · refine IH s' m2 ?_ hbounds'
        rw [m5]
        rw [hstepsum] at hbudget
        have : opWrites (SndOp.handleRcvd w a) = 0 := rfl
        omega

/-- C3: across any admissible run of a connected TCP endpoint's worker
operations (`sendData`, `sender.handleRcvdSegment`, `handleWrite`)
started from `newSender`, every step succeeds and, after every
operation, `snd.sndUna` and `snd.sndNxt` are non-decreasing in
sequence-number order and `sndUna ≤ sndNxt ≤ sndNxtList` holds. -/
theorem sender_monotonic (iss wnd0 : Nat) (scale : Int) (ops : List SndOp)
    (hwnd0 : wnd0 < 2 ^ 16) (hops : opsAdmissible ops) :
    okRun (newSender iss wnd0 scale) ops := by
  have h0 : newSender iss wnd0 scale = projSender
      ⟨wnd0, iss + 1, iss + 1, iss + 1, if scale > 0 then scale.toNat else 0, [], none⟩ := by
    simp only [newSender, projSender, seqAdd, List.map_nil]
  rw [h0]
  refine okRun_of_inv (iss + 1) ops _ ?_ ?_ hops.2
  · exact ⟨[], [], [], rfl, by simp, Or.inl rfl, by simp, le_refl _, le_refl _, le_refl _,
      by simp, by simp, fun _ => ⟨rfl, rfl⟩, fun i h => by simp at h, hwnd0⟩
  · have := hops.1
    show iss + 1 + (ops.map opWrites).sum ≤ iss + 1 + 2 ^ 30
    omega

/-- Witness: a concrete admissible run (queue five bytes, push them out,
receive a window update acknowledging them) from a fresh sender. -/
theorem sender_monotonic_witness :
    okRun (newSender 0 10 0)
      [SndOp.handleWrite [5], SndOp.sendData, SndOp.handleRcvd 100 6] :=
  sender_monotonic 0 10 0 _ (by norm_num)
    ⟨by norm_num [opWrites, contrib], by
      intro op hop
      fin_cases hop <;> norm_num [tcpW]⟩

/-- C4: `sender.handleRcvdSegment` stores the received segment's 16-bit
window field into `sndWnd` as is — the peer's advertised scale
`sndWndScale` is never applied.  In particular a sender created with
peer scale 2 that receives a window of 100 ends with `sndWnd = 100`,
not `100 << 2 = 400` as the claim requires; the scale was recorded
(`sndWndScale = 2`) but is dead. -/
theorem sndWnd_not_scaled :
    (∀ (s : Sender) (window ack : Nat) (s' : Sender),
        s.handleRcvdSegment window ack = some s' → s'.sndWnd = window) ∧
    ((newSender 1000 1 2).sndWndScale = 2 ∧
      ∃ s', (newSender 1000 1 2).handleRcvdSegment 100 0 = some s' ∧
        s'.sndWnd = 100 ∧ s'.sndWnd ≠ 100 * 2 ^ 2) := by
  constructor
  · intro s window ack s' h
    simp only [Sender.handleRcvdSegment] at h
    split at h
    · split at h
      · exact absurd h (by simp)
      · cases Option.some.inj h
        rfl
    · cases Option.some.inj h
      rfl
  · exact ⟨rfl, _, rfl, rfl, by decide⟩

/-- Witness for the universally quantified part of `sndWnd_not_scaled`:
a concrete received segment leaves `sndWnd` equal to the raw window
field. -/
theorem sndWnd_not_scaled_witness :
    ∃ s', (newSender 5 7 (-1)).handleRcvdSegment 33 0 = some s' ∧ s'.sndWnd = 33 :=
  ⟨{ newSender 5 7 (-1) with sndWnd := 33 }, by decide,
    sndWnd_not_scaled.1 (newSender 5 7 (-1)) 33 0 _ (by decide)⟩

/-- C1: `receiver.consumeSegment` trims the segment head to `rcvNxt`,
enqueues it through `readyToRead` (which wakes readers), but never
advances `rcvNxt` — no statement in part_020 assigns it after
construction.  Concretely, at `rcvNxt = 790` an in-order 3-byte segment
at 790 is delivered and readers are notified, yet `rcvNxt` remains 790
instead of the claimed `790 + 3 = 793`. -/
theorem receiver_rcvNxt_not_advanced :
    (∀ (r : Receiver) (e : REndpoint) (seg : RSegment),
        (r.handleRcvdSegment e seg).1.rcvNxt = r.rcvNxt) ∧
    ((Receiver.handleRcvdSegment ⟨790, 800, false⟩ ⟨[], 0, false, false⟩ ⟨790, 3⟩).2.rcvList
        = [⟨790, 3⟩] ∧
      (Receiver.handleRcvdSegment ⟨790, 800, false⟩ ⟨[], 0, false, false⟩
          ⟨790, 3⟩).2.rcvBufUsed = 3 ∧
      (Receiver.handleRcvdSegment ⟨790, 800, false⟩ ⟨[], 0, false, false⟩
          ⟨790, 3⟩).2.notified = true ∧
      (Receiver.handleRcvdSegment ⟨790, 800, false⟩ ⟨[], 0, false, false⟩
          ⟨790, 3⟩).1.rcvNxt = 790 ∧
      seqAdd 790 3 = 793 ∧
      ¬ ((Receiver.handleRcvdSegment ⟨790, 800, false⟩ ⟨[], 0, false, false⟩
          ⟨790, 3⟩).1.rcvNxt = seqAdd 790 3)) := by
  constructor
  · intro r e seg
    simp only [Receiver.handleRcvdSegment]
    split
    · rfl
    split
    · rfl
    simp only [consumeSegment]
    split
    · split
      · rfl
      · rfl
    · split
      · rfl
      · rfl
  · exact ⟨by decide, by decide, by decide, by decide, by decide, by decide⟩

/-- Witness for the universally quantified part of
`receiver_rcvNxt_not_advanced` (the concrete part of the theorem is
closed): the handler leaves `rcvNxt` unchanged on a fresh input. -/
theorem receiver_rcvNxt_not_advanced_witness :
    (Receiver.handleRcvdSegment ⟨100, 150, false⟩ ⟨[], 0, false, false⟩
        ⟨100, 7⟩).1.rcvNxt = 100 :=
  receiver_rcvNxt_not_advanced.1 ⟨100, 150, false⟩ ⟨[], 0, false, false⟩ ⟨100, 7⟩

/-- C9: `GetSockOpt(ErrorOption)` returns and clears `lastError`, a
field no code path ever assigns; the fatal error stored by
`resetConnection` goes to `hardError`, which `GetSockOpt` does not
read.  After a reset the first `GetSockOpt` returns no error instead of
the recorded hard error (and the hard error is not cleared). -/
theorem getSockOpt_misses_hardError :
    (∀ (e : ErrEndpoint), (GetSockOptError e).1 = e.lastError ∧
        (GetSockOptError e).2.hardError = e.hardError ∧
        (GetSockOptError e).2.lastError = none) ∧
    ((resetConnection ⟨EPState.connected, none, none⟩ "aborted").state = EPState.error ∧
      (resetConnection ⟨EPState.connected, none, none⟩ "aborted").hardError
        = some "aborted" ∧
      (GetSockOptError (resetConnection ⟨EPState.connected, none, none⟩ "aborted")).1
        = none ∧
      (GetSockOptError (resetConnection ⟨EPState.connected, none, none⟩ "aborted")).1
        ≠ some "aborted") := by
  exact ⟨fun e => ⟨rfl, rfl, rfl⟩, rfl, rfl, rfl, by decide⟩

end Yustack
